import Mathlib

/-!
Shallow embedding of the Vamana ANN graph index (src/src/vamana.cpp,
src/include/vamana.h, src/src/distance_functions.cpp).

Modelling conventions:
- 32-bit ids are modelled as `ℕ` (no claim exercises wrap-around).
- `float` scalars are modelled as `ℚ`; the algorithms only compare and
  combine distances, so exact rational arithmetic reflects the control
  flow of the source for all inputs considered here.
- `std::unordered_map<uint32_t, vamana_node_t>` is modelled as an
  association list; `findNode` is `find` (first match), `begin()` is the
  head of the list.
- The `distance == std::numeric_limits<float>::lowest()` sentinel used by
  `robust_prune` to mark consumed/pruned candidates is modelled as an
  explicit `pruned` flag (no genuine distance is ever the sentinel).
- `greedy_search`'s while-loop is run on fuel `node_map.length + 1`:
  every iteration pops one queue element, and an id is pushed at most
  once (the visited set guards pushes) and only when present in the map,
  so at most `node_map.length` pops can ever occur.
-/

set_option maxHeartbeats 2000000

inductive distance_metric_t
  | L2
  | INNER_PRODUCT
deriving DecidableEq, Repr

/-- Squared Euclidean distance (distance_functions.cpp, l2_distance). -/
def l2_distance (a b : List ℚ) (dim : ℕ) : ℚ :=
  ((List.range dim).map (fun i => (a.getD i 0 - b.getD i 0) * (a.getD i 0 - b.getD i 0))).sum

/-- Inner-product distance 1 - dot (distance_functions.cpp, ip_distance). -/
def ip_distance (a b : List ℚ) (dim : ℕ) : ℚ :=
  1 - ((List.range dim).map (fun i => a.getD i 0 * b.getD i 0)).sum

/-- Metric dispatch (distance_functions.cpp, distance_functions_t::compute). -/
def distance_compute (metric : distance_metric_t) (a b : List ℚ) (dims : ℕ) : ℚ :=
  match metric with
  | .L2 => l2_distance a b dims
  | .INNER_PRODUCT => ip_distance a b dims

structure vamana_candidate_t where
  id : ℕ
  distance : ℚ
deriving DecidableEq, Repr

structure vamana_node_t where
  neighbors : List ℕ
  vector : List ℚ
deriving DecidableEq, Repr

abbrev NodeMap := List (ℕ × vamana_node_t)

/-- Lookup in the node map (std::unordered_map::find). -/
def findNode : NodeMap → ℕ → Option vamana_node_t
  | [], _ => none
  | p :: rest, id => if p.1 = id then some p.2 else findNode rest id

/-- Rewrite the node stored under a key in place. -/
def updateEntry (m : NodeMap) (id : ℕ) (f : vamana_node_t → vamana_node_t) : NodeMap :=
  m.map (fun p => if p.1 = id then (p.1, f p.2) else p)

/-- Physical erase (std::unordered_map::erase). -/
def eraseNode (m : NodeMap) (id : ℕ) : NodeMap :=
  m.filter (fun p => decide (p.1 ≠ id))

/-- Insert only if the key is absent (std::unordered_map::try_emplace). -/
def tryEmplace (m : NodeMap) (id : ℕ) (node : vamana_node_t) : NodeMap :=
  match findNode m id with
  | some _ => m
  | none => m ++ [(id, node)]

/-- Streaming medoid tracker (vamana.h, StreamingMedoid); counters are
uint64, so decrements wrap modulo 2^64. -/
structure StreamingMedoid where
  sum : List ℚ
  n : ℕ
  interval : ℕ
  countdown : ℕ
deriving DecidableEq, Repr

def u64dec (c : ℕ) : ℕ := if c = 0 then 2 ^ 64 - 1 else c - 1

def medoidAdd (m : StreamingMedoid) (x : List ℚ) : StreamingMedoid :=
  { m with sum := List.zipWith (· + ·) m.sum x, n := (m.n + 1) % 2 ^ 64,
           countdown := u64dec m.countdown }

def medoidSub (m : StreamingMedoid) (x : List ℚ) : StreamingMedoid :=
  { m with sum := List.zipWith (· - ·) m.sum x, n := u64dec m.n,
           countdown := u64dec m.countdown }

def should_recompute (m : StreamingMedoid) : Bool := m.countdown = 0

/-- Produces the centroid and resets the countdown (StreamingMedoid::centroid). -/
def medoidCentroid (m : StreamingMedoid) : List ℚ × StreamingMedoid :=
  (m.sum.map (fun v => v * (1 / (m.n : ℚ))), { m with countdown := m.interval })

/-- The index state (class Vamana, vamana.h). -/
structure Vamana where
  R : ℕ
  metric : distance_metric_t
  dims : ℕ
  node_map : NodeMap
  start_node : ℕ
  medoid_tracker : StreamingMedoid
  delete_list : List ℕ
deriving DecidableEq, Repr

/-- Constructor Vamana::Vamana: empty map, start_node 0, medoid tracker
with dims zeros and interval 10000. -/
def Vamana.init (R : ℕ) (metric : distance_metric_t) (dims : ℕ) : Vamana :=
  ⟨R, metric, dims, [], 0, ⟨List.replicate dims 0, 0, 10000, 10000⟩, []⟩

def neighborsOf (s : Vamana) (id : ℕ) : List ℕ :=
  match findNode s.node_map id with
  | some n => n.neighbors
  | none => []

def setNeighbors (s : Vamana) (id : ℕ) (nbrs : List ℕ) : Vamana :=
  { s with node_map := updateEntry s.node_map id (fun n => { n with neighbors := nbrs }) }

def setVector (s : Vamana) (id : ℕ) (v : List ℚ) : Vamana :=
  { s with node_map := updateEntry s.node_map id (fun n => { n with vector := v }) }

/-- Extract one element of minimal distance (the frontier min-heap pop;
ties resolve to the earliest element, heap tie order being unspecified). -/
def popMin : List vamana_candidate_t → Option (vamana_candidate_t × List vamana_candidate_t)
  | [] => none
  | c :: rest =>
    match popMin rest with
    | none => some (c, [])
    | some (m, r) => if m.distance < c.distance then some (m, c :: r) else some (c, rest)

/-- Extract one element of maximal distance (the result max-heap pop). -/
def popMax : List vamana_candidate_t → Option (vamana_candidate_t × List vamana_candidate_t)
  | [] => none
  | c :: rest =>
    match popMax rest with
    | none => some (c, [])
    | some (m, r) => if c.distance < m.distance then some (m, c :: r) else some (c, rest)

/-- Drain the result heap worst-first (the final while-loop of
greedy_search); fuel is the list length, which drops by one per pop. -/
def drainResults : ℕ → List vamana_candidate_t → List vamana_candidate_t
  | 0, _ => []
  | fuel + 1, l =>
    match popMax l with
    | none => []
    | some (m, r) => m :: drainResults fuel r

/-- State of greedy_search's while-loop: frontier, result heap, visited
set, and pruning radius (none models the initial FLT_MAX, never exceeded). -/
structure search_state where
  candidates : List vamana_candidate_t
  results : List vamana_candidate_t
  visited : List ℕ
  max_distance : Option ℚ

/-- Result-heap update for one accepted-or-not candidate (the body of
lines 99-114 of greedy_search): conditional push, worst-drop when above
L, and radius refresh when exactly at L. -/
def acceptResults (L : ℕ) (filter : Option (ℕ → Bool)) (delete_list : List ℕ)
    (nn : vamana_candidate_t) (results : List vamana_candidate_t) (maxd : Option ℚ) :
    List vamana_candidate_t × Option ℚ :=
  let accept :=
    (decide (results.length < L) ||
      (match popMax results with
       | some (m, _) => decide (nn.distance < m.distance)
       | none => false)) &&
    decide (nn.id ∉ delete_list)
  if accept then
    let r1 :=
      if (match filter with | some f => f nn.id | none => true) then
        results ++ [nn]
      else results
    let r2 :=
      if L < r1.length then
        match popMax r1 with
        | some (_, rst) => rst
        | none => r1
      else r1
    let m2 :=
      if r2.length = L then
        match popMax r2 with
        | some (w, _) => some w.distance
        | none => maxd
      else maxd
    (r2, m2)
  else (results, maxd)

/-- Neighbor expansion of a popped candidate: mark each neighbor
visited, and push a frontier entry for the newly-visited ones that are
present in the map. -/
def expandNeighbors (s : Vamana) (query : List ℚ) (nbrs : List ℕ)
    (acc : List vamana_candidate_t × List ℕ) : List vamana_candidate_t × List ℕ :=
  nbrs.foldl
    (fun acc2 nb =>
      if nb ∈ acc2.2 then acc2
      else
        match findNode s.node_map nb with
        | none => (acc2.1, nb :: acc2.2)
        | some nnode =>
          (acc2.1 ++ [vamana_candidate_t.mk nb
              (distance_compute s.metric nnode.vector query s.dims)],
           nb :: acc2.2))
    acc

/-- One iteration of greedy_search's while-loop; none means the loop
exits (empty frontier or the best candidate is beyond the radius). -/
def greedy_step (s : Vamana) (query : List ℚ) (L : ℕ) (filter : Option (ℕ → Bool))
    (st : search_state) : Option search_state :=
  match popMin st.candidates with
  | none => none
  | some (nn, rest) =>
    let stop := match st.max_distance with
      | some m => decide (m < nn.distance)
      | none => false
    if stop then none
    else
      let acc1 := acceptResults L filter s.delete_list nn st.results st.max_distance
      let exp :=
        match findNode s.node_map nn.id with
        | none => (rest, st.visited)
        | some node => expandNeighbors s query node.neighbors (rest, st.visited)
      some (search_state.mk exp.1 acc1.1 exp.2 acc1.2)

def greedy_loop (s : Vamana) (query : List ℚ) (L : ℕ) (filter : Option (ℕ → Bool)) :
    ℕ → search_state → List vamana_candidate_t
  | 0, st => st.results
  | fuel + 1, st =>
    match greedy_step s query L filter st with
    | none => st.results
    | some st2 => greedy_loop s query L filter fuel st2

/-- Vamana::greedy_search.  The out-parameter is modelled as the return
value (all call sites pass a fresh search_result_t). -/
def Vamana.greedy_search (s : Vamana) (start : ℕ) (query : List ℚ) (k L : ℕ)
    (filter : Option (ℕ → Bool)) : List vamana_candidate_t :=
  match findNode s.node_map start with
  | none => []
  | some snode =>
    let d0 := distance_compute s.metric snode.vector query s.dims
    let final := greedy_loop s query L filter (s.node_map.length + 1)
      ⟨[⟨start, d0⟩], [], [start], none⟩
    ((drainResults final.length final).reverse).take k

/-- Working candidate of robust_prune; `pruned` models the in-place
overwrite of `distance` with the FLT lowest sentinel. -/
structure prune_cand_t where
  id : ℕ
  distance : ℚ
  pruned : Bool
deriving DecidableEq, Repr

/-- Inner loop of robust_prune: mark every later candidate dominated by
the just-selected neighbor under the alpha-RNG test. -/
def markPruned (nm : NodeMap) (metric : distance_metric_t) (dims : ℕ) (alpha : ℚ)
    (p : ℕ) (neighbor_vec : List ℚ) (rest : List prune_cand_t) : List prune_cand_t :=
  rest.map (fun c =>
    if c.pruned then c
    else if c.id = p then c
    else
      match findNode nm c.id with
      | none => c
      | some cn =>
        if alpha * distance_compute metric neighbor_vec cn.vector dims ≤ c.distance then
          { c with pruned := true }
        else c)

/-- One selection pass of robust_prune (the body of its outer two-pass
loop).  Returns the neighbor list built so far, the candidate array with
its consumed/pruned marks, and whether the R-cap early return fired
(which in the source returns from the whole function).  Fuel is the
candidate count; `markPruned` preserves length, so it never runs out. -/
def robustPruneScan (nm : NodeMap) (metric : distance_metric_t) (dims R : ℕ) (p : ℕ)
    (alpha : ℚ) : ℕ → List prune_cand_t → List ℕ → List ℕ × List prune_cand_t × Bool
  | _, [], nbrs => (nbrs, [], false)
  | 0, cands, nbrs => (nbrs, cands, false)
  | fuel + 1, c :: rest, nbrs =>
    if R ≤ nbrs.length then (nbrs, c :: rest, true)
    else if c.pruned then
      let r := robustPruneScan nm metric dims R p alpha fuel rest nbrs
      (r.1, c :: r.2.1, r.2.2)
    else if c.id = p then
      let r := robustPruneScan nm metric dims R p alpha fuel rest nbrs
      (r.1, c :: r.2.1, r.2.2)
    else
      let rest2 :=
        match findNode nm c.id with
        | none => rest
        | some nnode => markPruned nm metric dims alpha p nnode.vector rest
      let r := robustPruneScan nm metric dims R p alpha fuel rest2 (nbrs ++ [c.id])
      (r.1, { c with pruned := true } :: r.2.1, r.2.2)

/-- Vamana::robust_prune.  Pass 1 runs with alpha = 1, pass 2 with the
caller's max_alpha; an early R-cap return in pass 1 skips pass 2.  The
candidate array is caller scratch at every call site, so only the new
index state is returned. -/
def Vamana.robust_prune (s : Vamana) (p : ℕ) (candidates : List vamana_candidate_t)
    (max_alpha : ℚ) : Vamana :=
  match findNode s.node_map p with
  | none => s
  | some _ =>
    let pc := candidates.map (fun c => prune_cand_t.mk c.id c.distance false)
    let pass1 := robustPruneScan s.node_map s.metric s.dims s.R p 1 pc.length pc []
    let nbrs :=
      if pass1.2.2 then pass1.1
      else
        (robustPruneScan s.node_map s.metric s.dims s.R p max_alpha
          pass1.2.1.length pass1.2.1 pass1.1).1
    setNeighbors s p nbrs

/-- Order used by std::sort with vamana_candidate_t::max_cmp, whose
operator() is `a.distance < b.distance`; std::sort therefore produces a
non-decreasing (ascending-by-distance) arrangement. -/
def candLE (a b : vamana_candidate_t) : Prop := a.distance ≤ b.distance

instance : DecidableRel candLE := fun a b => inferInstanceAs (Decidable (a.distance ≤ b.distance))

instance : IsTotal vamana_candidate_t candLE := ⟨fun a b => le_total a.distance b.distance⟩

instance : IsTrans vamana_candidate_t candLE := ⟨fun _ _ _ h h2 => le_trans h h2⟩

/-- Candidate list built by Vamana::update_neighbors when a neighbor is
already at capacity: the neighbor's live, present neighbors plus the new
id, with distances to the neighbor, then std::sort with max_cmp. -/
def build_ncandidates (s : Vamana) (neighbor_node : vamana_node_t) (id : ℕ)
    (vec : List ℚ) : List vamana_candidate_t :=
  let base := neighbor_node.neighbors.filterMap (fun nn =>
    if nn ∈ s.delete_list then none
    else
      match findNode s.node_map nn with
      | none => none
      | some n =>
        some (vamana_candidate_t.mk nn
          (distance_compute s.metric n.vector neighbor_node.vector s.dims)))
  let dist_to_node := distance_compute s.metric neighbor_node.vector vec s.dims
  List.insertionSort candLE (base ++ [vamana_candidate_t.mk id dist_to_node])

/-- Vamana::update_neighbors: back-edge patch over the (snapshot of the)
new node's neighbor list.  At all call sites id is not its own neighbor
(robust_prune just ran on id), so the snapshot equals the live list. -/
def Vamana.update_neighbors (s : Vamana) (id : ℕ) (vec : List ℚ) (alpha : ℚ) : Vamana :=
  (neighborsOf s id).foldl
    (fun st neighbor_id =>
      if neighbor_id ∈ st.delete_list then st
      else
        match findNode st.node_map neighbor_id with
        | none => st
        | some neighbor_node =>
          if st.R ≤ neighbor_node.neighbors.length then
            Vamana.robust_prune st neighbor_id
              (build_ncandidates st neighbor_node id vec) alpha
          else
            if id ∈ neighbor_node.neighbors then st
            else setNeighbors st neighbor_id (neighbor_node.neighbors ++ [id]))
    s

/-- Vamana::try_medoid_compute. -/
def Vamana.try_medoid_compute (s : Vamana) (point : List ℚ) (force : Bool) : Vamana :=
  let mt := medoidAdd s.medoid_tracker point
  let s1 := { s with medoid_tracker := mt }
  if force || should_recompute mt then
    let cm := medoidCentroid mt
    let s2 := { s1 with medoid_tracker := cm.2 }
    let res := Vamana.greedy_search s2 s2.start_node cm.1 1 64 none
    match res.head? with
    | some r => { s2 with start_node := r.id }
    | none => s2
  else s1

/-- Vamana::insert. -/
def Vamana.insert (s : Vamana) (id : ℕ) (vec : List ℚ) (L : ℕ) (alpha : ℚ) : Vamana :=
  let s1 := { s with node_map := tryEmplace s.node_map id (vamana_node_t.mk [] vec) }
  let s2 := Vamana.try_medoid_compute s1 vec false
  let sr := Vamana.greedy_search s2 s2.start_node vec L L none
  let s3 := Vamana.robust_prune s2 id sr alpha
  Vamana.update_neighbors s3 id vec alpha

/-- Vamana::update. -/
def Vamana.update (s : Vamana) (id : ℕ) (new_vec : List ℚ) (L : ℕ) (alpha : ℚ) : Vamana :=
  match findNode s.node_map id with
  | none => s
  | some _ =>
    if id ∈ s.delete_list then s
    else
      let s1 := setVector s id new_vec
      let sr := Vamana.greedy_search s1 s1.start_node new_vec L L none
      let s2 := Vamana.robust_prune s1 id sr alpha
      Vamana.update_neighbors s2 id new_vec alpha

/-- Vamana::batch_delete. -/
def Vamana.batch_delete (s : Vamana) : Vamana :=
  if s.delete_list = [] then s
  else
    { s with
      node_map := s.node_map.map (fun p =>
        (p.1,
          { p.2 with
            neighbors := p.2.neighbors.filter (fun x => decide (x ∉ s.delete_list)) })),
      delete_list := [] }

/-- dedup_vector (vamana.h): erase-remove keeping first occurrences. -/
def dedup_vector (v : List ℕ) : List ℕ :=
  (v.foldl (fun acc x => if x ∈ acc then acc else acc ++ [x]) [])

/-- std::set-style insert into the tombstone list. -/
def insertTombstone (dl : List ℕ) (id : ℕ) : List ℕ :=
  if id ∈ dl then dl else dl ++ [id]

/-- Order used by remove's partial_sort over (distance, id) pairs. -/
def pairLE (a b : ℚ × ℕ) : Prop := a.1 ≤ b.1

instance : DecidableRel pairLE := fun a b => inferInstanceAs (Decidable (a.1 ≤ b.1))

instance : IsTotal (ℚ × ℕ) pairLE := ⟨fun a b => le_total a.1 b.1⟩

instance : IsTrans (ℚ × ℕ) pairLE := ⟨fun _ _ _ h h2 => le_trans h h2⟩

/-- Vamana::remove's select_top_c lambda: the C = 3 closest live
candidates from the delete-search result to the anchor, excluding the
node being removed (partial_sort modelled as full sort + take). -/
def select_top_c (s : Vamana) (sr : List vamana_candidate_t) (removed anchor : ℕ) :
    List ℕ :=
  let a_vec :=
    match findNode s.node_map anchor with
    | some n => n.vector
    | none => []
  let buf := sr.filterMap (fun cand =>
    if cand.id = removed then none
    else
      match findNode s.node_map cand.id with
      | none => none
      | some cn =>
        some (distance_compute s.metric a_vec cn.vector s.dims, cand.id))
  let take := min 3 buf.length
  ((List.insertionSort pairLE buf).take take).map Prod.snd

/-- Vamana::remove's patch_edges lambda: append, dedup, and re-prune
with alpha = 1.2 if the list now exceeds R. -/
def patch_edges (s : Vamana) (owner : ℕ) (add : List ℕ) : Vamana :=
  let nbrs := dedup_vector (neighborsOf s owner ++ add)
  let s1 := setNeighbors s owner nbrs
  if s.R < nbrs.length then
    let owner_vec :=
      match findNode s1.node_map owner with
      | some n => n.vector
      | none => []
    let cand := nbrs.filterMap (fun v =>
      match findNode s1.node_map v with
      | none => none
      | some vn =>
        some (vamana_candidate_t.mk v
          (distance_compute s1.metric vn.vector owner_vec s1.dims)))
    Vamana.robust_prune s1 owner (List.insertionSort candLE cand) (6 / 5)
  else s1

/-- Vamana::remove (IP-DiskANN Algorithm 5). -/
def Vamana.remove (s : Vamana) (id : ℕ) : Vamana :=
  match findNode s.node_map id with
  | none => s
  | some pnode =>
    let sr := Vamana.greedy_search s s.start_node pnode.vector 50 128 none
    let approx_in := sr.filterMap (fun nn =>
      match findNode s.node_map nn.id with
      | none => none
      | some n => if id ∈ n.neighbors then some nn.id else none)
    if approx_in = [] && pnode.neighbors.isEmpty then
      let s1 := { s with
        medoid_tracker := medoidSub s.medoid_tracker pnode.vector,
        delete_list := insertTombstone s.delete_list id,
        node_map := eraseNode s.node_map id }
      if s1.start_node = id then
        match s1.node_map.head? with
        | some p => { s1 with start_node := p.1 }
        | none => s1
      else s1
    else
      let s4 := approx_in.foldl
        (fun st z =>
          match findNode st.node_map z with
          | none => st
          | some _ => patch_edges st z (select_top_c st sr id z))
        s
      let s5 := (neighborsOf s4 id).foldl
        (fun st w =>
          match findNode st.node_map w with
          | none => st
          | some _ =>
            let scratch := select_top_c st sr id w
            if scratch.isEmpty then st
            else scratch.foldl
              (fun st2 y =>
                if y = w then st2
                else
                  match findNode st2.node_map y with
                  | none => st2
                  | some _ => patch_edges st2 y [w])
              st)
        s4
      let s6 := { s5 with
        medoid_tracker := medoidSub s5.medoid_tracker pnode.vector,
        delete_list := insertTombstone s5.delete_list id,
        node_map := eraseNode s5.node_map id }
      if s6.start_node = id && !s6.node_map.isEmpty then
        let cm := medoidCentroid s6.medoid_tracker
        let s7 := { s6 with medoid_tracker := cm.2 }
        let fallback :=
          match s7.node_map.head? with
          | some p => p.1
          | none => 0
        let mres := Vamana.greedy_search s7 fallback cm.1 1 64 none
        match mres.head? with
        | some r => { s7 with start_node := r.id }
        | none => { s7 with start_node := fallback }
      else s6

/-- Inner scan of Vamana::validate_graph for one node: walk the neighbor
list with a seen-set, rejecting on a repeat or when the seen-set already
exceeds R before inserting. -/
def validateNode (R : ℕ) : List ℕ → List ℕ → Bool
  | _, [] => true
  | seen, nb :: rest =>
    if nb ∈ seen || R < seen.length then false
    else validateNode R (nb :: seen) rest

/-- Vamana::validate_graph. -/
def Vamana.validate_graph (s : Vamana) : Bool :=
  s.node_map.all (fun p => validateNode s.R [] p.2.neighbors)

/-- Degree-bound invariant of the spec: every node reachable through the
map holds at most R neighbors. -/
def DegInv (s : Vamana) : Prop :=
  ∀ j n, findNode s.node_map j = some n → n.neighbors.length ≤ s.R

/-- Two node maps giving every id the same stored vector. -/
def VecEq (m1 m2 : NodeMap) : Prop :=
  ∀ j, (findNode m1 j).map vamana_node_t.vector = (findNode m2 j).map vamana_node_t.vector

/-- Concrete three-node line graph over dims = 1, R = 4, L2: vectors 0,
5, 9; node 1 is linked from both sides. -/
def exThree : Vamana :=
  ⟨4, .L2, 1,
   [(0, ⟨[1], [0]⟩), (1, ⟨[0, 2], [5]⟩), (2, ⟨[1], [9]⟩)],
   0, ⟨[0], 3, 10000, 9997⟩, []⟩

/-- Concrete state for validate_graph: R = 1 and node 0 has the two
distinct neighbors 1 and 2 (exactly R + 1 of them). -/
def exRPlusOne : Vamana :=
  ⟨1, .L2, 1,
   [(0, ⟨[1, 2], [0]⟩), (1, ⟨[], [1]⟩), (2, ⟨[], [2]⟩)],
   0, ⟨[0], 3, 10000, 9997⟩, []⟩

/-- Concrete state for the back-edge patch: node 1 (vector 0) is at
capacity R = 2 with neighbors 2 (distance 1) and 3 (distance 4); the
new id 9 has vector 3 (distance 9 to node 1). -/
def exPatch : Vamana :=
  ⟨2, .L2, 1,
   [(1, ⟨[2, 3], [0]⟩), (2, ⟨[], [1]⟩), (3, ⟨[], [2]⟩)],
   0, ⟨[0], 3, 10000, 9997⟩, []⟩

/-- Well-formedness of a frontier entry: its id is present in the map
and its stored distance is the metric distance of that node to the
query. -/
def candOK (s : Vamana) (query : List ℚ) (c : vamana_candidate_t) : Prop :=
  ∃ n, findNode s.node_map c.id = some n ∧
    c.distance = distance_compute s.metric n.vector query s.dims

/-- Well-formedness of a result entry: a well-formed frontier entry that
is not tombstoned and passes the filter when one is supplied. -/
def resOK (s : Vamana) (query : List ℚ) (filter : Option (ℕ → Bool))
    (c : vamana_candidate_t) : Prop :=
  candOK s query c ∧ c.id ∉ s.delete_list ∧ ∀ g, filter = some g → g c.id = true

theorem findNode_updateEntry_self (m : NodeMap) (id : ℕ) (f : vamana_node_t → vamana_node_t) :
    findNode (updateEntry m id f) id = (findNode m id).map f := by
  induction m with
  | nil => simp [findNode, updateEntry]
  | cons p rest ih =>
    by_cases h : p.1 = id
    · simp [findNode, updateEntry, h]
    · simp [findNode, updateEntry, h] at ih ⊢
      exact ih

theorem findNode_updateEntry_other (m : NodeMap) (id j : ℕ) (f : vamana_node_t → vamana_node_t)
    (hne : j ≠ id) : findNode (updateEntry m id f) j = findNode m j := by
  have hne2 : ¬ id = j := fun hh => hne hh.symm
  induction m with
  | nil => simp [findNode, updateEntry]
  | cons p rest ih =>
    obtain ⟨a, b⟩ := p
    by_cases h : a = id
    · subst h
      simp [updateEntry, findNode, hne2] at ih ⊢
      exact ih
    · by_cases h2 : a = j
      · simp [updateEntry, findNode, h, h2, hne]
      · simp [updateEntry, findNode, h, h2] at ih ⊢
        exact ih

theorem findNode_eraseNode (m : NodeMap) (id j : ℕ) :
    findNode (eraseNode m id) j = if j = id then none else findNode m j := by
  induction m with
  | nil => simp [findNode, eraseNode]
  | cons p rest ih =>
    obtain ⟨a, b⟩ := p
    by_cases h : a = id
    · subst h
      by_cases h2 : j = a
      · simp [eraseNode, findNode, h2] at ih ⊢
        exact ih
      · have h3 : ¬ a = j := fun hh => h2 hh.symm
        simp [eraseNode, findNode, h2, h3] at ih ⊢
        exact ih
    · by_cases h2 : a = j
      · have h3 : ¬ j = id := by rw [← h2]; exact h
        simp [eraseNode, findNode, h, h2, h3]
      · simp [eraseNode, findNode, h, h2] at ih ⊢
        exact ih

theorem findNode_append_single (m : NodeMap) (id j : ℕ) (node : vamana_node_t) :
    findNode (m ++ [(id, node)]) j =
      match findNode m j with
      | some n => some n
      | none => if id = j then some node else none := by
  induction m with
  | nil => simp [findNode]
  | cons p rest ih =>
    by_cases h : p.1 = j
    · simp [findNode, h]
    · simp [findNode, h]
      exact ih

theorem findNode_tryEmplace_self_absent (m : NodeMap) (id : ℕ) (node : vamana_node_t)
    (h : findNode m id = none) : findNode (tryEmplace m id node) id = some node := by
  simp [tryEmplace, h, findNode_append_single]

theorem findNode_tryEmplace_other (m : NodeMap) (id j : ℕ) (node : vamana_node_t)
    (hne : j ≠ id) : findNode (tryEmplace m id node) j = findNode m j := by
  unfold tryEmplace
  cases hfind : findNode m id with
  | some n => rfl
  | none =>
    rw [findNode_append_single]
    cases hj : findNode m j with
    | some n => rfl
    | none =>
      have : ¬ id = j := fun hh => hne hh.symm
      simp [this]

theorem findNode_tryEmplace_present (m : NodeMap) (id : ℕ) (node : vamana_node_t) (n0 : vamana_node_t)
    (h : findNode m id = some n0) : tryEmplace m id node = m := by
  simp [tryEmplace, h]

theorem findNode_mapNodes (m : NodeMap) (g : vamana_node_t → vamana_node_t) (j : ℕ) :
    findNode (m.map (fun p => (p.1, g p.2))) j = (findNode m j).map g := by
  induction m with
  | nil => simp [findNode]
  | cons p rest ih =>
    by_cases h : p.1 = j
    · simp [findNode, h]
    · simp [findNode, h]
      exact ih

theorem foldl_preserve {α σ : Type} (P : σ → Prop) (step : σ → α → σ)
    (hstep : ∀ st x, P st → P (step st x)) :
    ∀ (l : List α) (s : σ), P s → P (l.foldl step s) := by
  intro l
  induction l with
  | nil => intro s h; simpa using h
  | cons x rest ih =>
    intro s h
    simpa using ih (step s x) (hstep s x h)

theorem popMax_eq_none {l : List vamana_candidate_t} (h : popMax l = none) : l = [] := by
  cases l with
  | nil => rfl
  | cons c rest =>
    exfalso
    simp only [popMax] at h
    cases hr : popMax rest with
    | none => rw [hr] at h; exact Option.noConfusion h
    | some p =>
      rw [hr] at h
      simp only [] at h
      by_cases hd : c.distance < p.1.distance <;> simp [hd] at h

theorem popMax_perm {l : List vamana_candidate_t} {m : vamana_candidate_t}
    {r : List vamana_candidate_t} (h : popMax l = some (m, r)) : l.Perm (m :: r) := by
  induction l generalizing m r with
  | nil => simp [popMax] at h
  | cons c rest ih =>
    simp only [popMax] at h
    cases hr : popMax rest with
    | none =>
      rw [hr] at h
      have hrest := popMax_eq_none hr
      subst hrest
      simp only [Option.some.injEq, Prod.mk.injEq] at h
      obtain ⟨h1, h2⟩ := h
      subst h1
      subst h2
      exact List.Perm.refl _
    | some p =>
      obtain ⟨m2, r2⟩ := p
      rw [hr] at h
      simp only [] at h
      by_cases hd : c.distance < m2.distance
      · rw [if_pos hd] at h
        simp only [Option.some.injEq, Prod.mk.injEq] at h
        obtain ⟨h1, h2⟩ := h
        subst h1
        subst h2
        exact (List.Perm.cons c (ih hr)).trans (List.Perm.swap m2 c r2)
      · rw [if_neg hd] at h
        simp only [Option.some.injEq, Prod.mk.injEq] at h
        obtain ⟨h1, h2⟩ := h
        subst h1
        subst h2
        exact List.Perm.refl _

theorem popMax_ge {l : List vamana_candidate_t} {m : vamana_candidate_t}
    {r : List vamana_candidate_t} (h : popMax l = some (m, r)) :
    ∀ x ∈ l, x.distance ≤ m.distance := by
  induction l generalizing m r with
  | nil => simp [popMax] at h
  | cons c rest ih =>
    simp only [popMax] at h
    cases hr : popMax rest with
    | none =>
      rw [hr] at h
      have hrest := popMax_eq_none hr
      subst hrest
      simp only [Option.some.injEq, Prod.mk.injEq] at h
      obtain ⟨h1, h2⟩ := h
      subst h1
      intro x hx
      simp only [List.mem_singleton] at hx
      rw [hx]
    | some p =>
      obtain ⟨m2, r2⟩ := p
      rw [hr] at h
      simp only [] at h
      by_cases hd : c.distance < m2.distance
      · rw [if_pos hd] at h
        simp only [Option.some.injEq, Prod.mk.injEq] at h
        obtain ⟨h1, h2⟩ := h
        subst h1
        intro x hx
        rcases List.mem_cons.mp hx with hx | hx
        · rw [hx]; exact le_of_lt hd
        · exact ih hr x hx
      · rw [if_neg hd] at h
        simp only [Option.some.injEq, Prod.mk.injEq] at h
        obtain ⟨h1, h2⟩ := h
        subst h1
        intro x hx
        rcases List.mem_cons.mp hx with hx | hx
        · rw [hx]
        · exact le_trans (ih hr x hx) (le_of_not_lt hd)

theorem popMin_eq_none {l : List vamana_candidate_t} (h : popMin l = none) : l = [] := by
  cases l with
  | nil => rfl
  | cons c rest =>
    exfalso
    simp only [popMin] at h
    cases hr : popMin rest with
    | none => rw [hr] at h; exact Option.noConfusion h
    | some p =>
      rw [hr] at h
      simp only [] at h
      by_cases hd : p.1.distance < c.distance <;> simp [hd] at h

theorem popMin_perm {l : List vamana_candidate_t} {m : vamana_candidate_t}
    {r : List vamana_candidate_t} (h : popMin l = some (m, r)) : l.Perm (m :: r) := by
  induction l generalizing m r with
  | nil => simp [popMin] at h
  | cons c rest ih =>
    simp only [popMin] at h
    cases hr : popMin rest with
    | none =>
      rw [hr] at h
      have hrest := popMin_eq_none hr
      subst hrest
      simp only [Option.some.injEq, Prod.mk.injEq] at h
      obtain ⟨h1, h2⟩ := h
      subst h1
      subst h2
      exact List.Perm.refl _
    | some p =>
      obtain ⟨m2, r2⟩ := p
      rw [hr] at h
      simp only [] at h
      by_cases hd : m2.distance < c.distance
      · rw [if_pos hd] at h
        simp only [Option.some.injEq, Prod.mk.injEq] at h
        obtain ⟨h1, h2⟩ := h
        subst h1
        subst h2
        exact (List.Perm.cons c (ih hr)).trans (List.Perm.swap m2 c r2)
      · rw [if_neg hd] at h
        simp only [Option.some.injEq, Prod.mk.injEq] at h
        obtain ⟨h1, h2⟩ := h
        subst h1
        subst h2
        exact List.Perm.refl _

theorem drainResults_mem {fuel : ℕ} {l : List vamana_candidate_t}
    {x : vamana_candidate_t} (h : x ∈ drainResults fuel l) : x ∈ l := by
  induction fuel generalizing l with
  | zero => simp [drainResults] at h
  | succ fuel ih =>
    simp only [drainResults] at h
    cases hp : popMax l with
    | none => rw [hp] at h; simp at h
    | some p =>
      obtain ⟨m, r⟩ := p
      rw [hp] at h
      rcases List.mem_cons.mp h with hx | hx
      · rw [hx]
        exact (popMax_perm hp).symm.mem_iff.mp (List.mem_cons_self m r)
      · exact (popMax_perm hp).symm.mem_iff.mp (List.mem_cons_of_mem m (ih hx))

theorem drainResults_sorted (fuel : ℕ) (l : List vamana_candidate_t) :
    List.Pairwise (fun a b => b.distance ≤ a.distance) (drainResults fuel l) := by
  induction fuel generalizing l with
  | zero => simp [drainResults]
  | succ fuel ih =>
    simp only [drainResults]
    cases hp : popMax l with
    | none => simp
    | some p =>
      obtain ⟨m, r⟩ := p
      refine List.Pairwise.cons ?_ (ih r)
      intro y hy
      have hyr : y ∈ r := drainResults_mem hy
      have hyl : y ∈ l := (popMax_perm hp).symm.mem_iff.mp (List.mem_cons_of_mem m hyr)
      exact popMax_ge hp y hyl

theorem drainResults_perm (fuel : ℕ) (l : List vamana_candidate_t)
    (hf : l.length ≤ fuel) : (drainResults fuel l).Perm l := by
  induction fuel generalizing l with
  | zero =>
    have : l = [] := List.length_eq_zero.mp (Nat.le_zero.mp hf)
    subst this
    simp [drainResults]
  | succ fuel ih =>
    simp only [drainResults]
    cases hp : popMax l with
    | none =>
      have : l = [] := popMax_eq_none hp
      subst this
      simp
    | some p =>
      obtain ⟨m, r⟩ := p
      have hperm := popMax_perm hp
      have hlen : r.length ≤ fuel := by
        have := hperm.length_eq
        simp only [List.length_cons] at this
        omega
      exact ((ih r hlen).cons m).trans hperm.symm

theorem expandNeighbors_visited_sub (s : Vamana) (query : List ℚ) (nbrs : List ℕ)
    (acc : List vamana_candidate_t × List ℕ) :
    ∀ x ∈ acc.2, x ∈ (expandNeighbors s query nbrs acc).2 := by
  induction nbrs generalizing acc with
  | nil => intro x hx; simpa [expandNeighbors] using hx
  | cons nb rest ih =>
    intro x hx
    simp only [expandNeighbors, List.foldl_cons]
    by_cases hv : nb ∈ acc.2
    · simp only [hv, if_pos]
      exact ih acc x hx
    · simp only [hv, if_neg, if_false]
      cases hf : findNode s.node_map nb with
      | none => exact ih _ x (List.mem_cons_of_mem nb hx)
      | some nnode => exact ih _ x (List.mem_cons_of_mem nb hx)

theorem expandNeighbors_mem (s : Vamana) (query : List ℚ) (nbrs : List ℕ)
    (acc : List vamana_candidate_t × List ℕ) :
    ∀ c ∈ (expandNeighbors s query nbrs acc).1,
      c ∈ acc.1 ∨ ∃ nb nnode, nb ∉ acc.2 ∧ findNode s.node_map nb = some nnode ∧
        c = vamana_candidate_t.mk nb (distance_compute s.metric nnode.vector query s.dims) := by
  induction nbrs generalizing acc with
  | nil => intro c hc; exact Or.inl (by simpa [expandNeighbors] using hc)
  | cons nb rest ih =>
    intro c hc
    simp only [expandNeighbors, List.foldl_cons] at hc
    by_cases hv : nb ∈ acc.2
    · simp only [hv, if_pos] at hc
      exact ih acc c hc
    · simp only [hv, if_neg, if_false] at hc
      cases hf : findNode s.node_map nb with
      | none =>
        rw [hf] at hc
        rcases ih _ c hc with hin | ⟨nb2, nnode2, hnb2, hfind2, hc2⟩
        · exact Or.inl hin
        · refine Or.inr ⟨nb2, nnode2, ?_, hfind2, hc2⟩
          intro hmem
          exact hnb2 (List.mem_cons_of_mem nb hmem)
      | some nnode =>
        rw [hf] at hc
        rcases ih _ c hc with hin | ⟨nb2, nnode2, hnb2, hfind2, hc2⟩
        · rcases List.mem_append.mp hin with hin | hin
          · exact Or.inl hin
          · simp only [List.mem_singleton] at hin
            exact Or.inr ⟨nb, nnode, hv, hf, hin⟩
        · refine Or.inr ⟨nb2, nnode2, ?_, hfind2, hc2⟩
          intro hmem
          exact hnb2 (List.mem_cons_of_mem nb hmem)

theorem popShrink_mem (L : ℕ) (l : List vamana_candidate_t) :
    ∀ d ∈ (if L < l.length then
        match popMax l with
        | some (_, rst) => rst
        | none => l
      else l), d ∈ l := by
  intro d hd
  by_cases hL : L < l.length
  · rw [if_pos hL] at hd
    cases hp : popMax l with
    | none => rw [hp] at hd; exact hd
    | some q =>
      obtain ⟨w, rst⟩ := q
      rw [hp] at hd
      exact (popMax_perm hp).symm.mem_iff.mp (List.mem_cons_of_mem w hd)
  · rw [if_neg hL] at hd; exact hd

theorem acceptResults_mem (L : ℕ) (filter : Option (ℕ → Bool)) (dl : List ℕ)
    (nn : vamana_candidate_t) (res : List vamana_candidate_t) (maxd : Option ℚ) :
    ∀ c ∈ (acceptResults L filter dl nn res maxd).1,
      c ∈ res ∨ (c = nn ∧ nn.id ∉ dl ∧ ∀ g, filter = some g → g nn.id = true) := by
  intro c hc
  simp only [acceptResults] at hc
  by_cases hacc : ((decide (res.length < L) ||
      (match popMax res with
       | some (m, _) => decide (nn.distance < m.distance)
       | none => false)) && decide (nn.id ∉ dl)) = true
  · rw [if_pos hacc] at hc
    simp only [] at hc
    have hdl : nn.id ∉ dl := by
      have := (Bool.and_eq_true _ _).mp hacc
      exact of_decide_eq_true this.2
    cases hfilter : filter with
    | none =>
      simp only [hfilter] at hc
      have hin := popShrink_mem L (res ++ [nn]) c (by simpa using hc)
      rcases List.mem_append.mp hin with hin | hin
      · exact Or.inl hin
      · simp only [List.mem_singleton] at hin
        refine Or.inr ⟨hin, hdl, ?_⟩
        intro g hg
        exact Option.noConfusion hg
    | some g =>
      by_cases hg : g nn.id = true
      · simp only [hfilter, hg] at hc
        have hin := popShrink_mem L (res ++ [nn]) c (by simpa using hc)
        rcases List.mem_append.mp hin with hin | hin
        · exact Or.inl hin
        · simp only [List.mem_singleton] at hin
          refine Or.inr ⟨hin, hdl, ?_⟩
          intro g2 hg2
          have : g = g2 := Option.some.inj hg2
          rw [← this]
          exact hg
      · simp only [hfilter, hg] at hc
        exact Or.inl (popShrink_mem L res c (by simpa using hc))
  · rw [if_neg hacc] at hc
    simp only [] at hc
    exact Or.inl hc

theorem greedy_step_inv (s : Vamana) (query : List ℚ) (L : ℕ) (filter : Option (ℕ → Bool))
    (st st2 : search_state) (h : greedy_step s query L filter st = some st2)
    (hc : ∀ c ∈ st.candidates, candOK s query c)
    (hr : ∀ c ∈ st.results, resOK s query filter c) :
    (∀ c ∈ st2.candidates, candOK s query c) ∧
      (∀ c ∈ st2.results, resOK s query filter c) := by
  simp only [greedy_step] at h
  cases hp : popMin st.candidates with
  | none => rw [hp] at h; exact Option.noConfusion h
  | some q =>
    obtain ⟨nn, rest⟩ := q
    rw [hp] at h
    simp only [] at h
    by_cases hstop : (match st.max_distance with
      | some m => decide (m < nn.distance)
      | none => false) = true
    · rw [if_pos hstop] at h
      exact Option.noConfusion h
    · rw [if_neg hstop] at h
      have hst2 := Option.some.inj h
      have hnn : nn ∈ st.candidates :=
        (popMin_perm hp).symm.mem_iff.mp (List.mem_cons_self nn rest)
      have hrest : ∀ c ∈ rest, candOK s query c := by
        intro c hcr
        exact hc c ((popMin_perm hp).symm.mem_iff.mp (List.mem_cons_of_mem nn hcr))
      constructor
      · intro c hmem
        rw [← hst2] at hmem
        simp only [] at hmem
        cases hf : findNode s.node_map nn.id with
        | none =>
          rw [hf] at hmem
          exact hrest c hmem
        | some node =>
          rw [hf] at hmem
          rcases expandNeighbors_mem s query node.neighbors (rest, st.visited) c hmem with
            hin | ⟨nb, nnode, _, hfind, hceq⟩
          · exact hrest c hin
          · exact ⟨nnode, by rw [hceq]; exact hfind, by rw [hceq]⟩
      · intro c hmem
        rw [← hst2] at hmem
        simp only [] at hmem
        rcases acceptResults_mem L filter s.delete_list nn st.results st.max_distance c hmem with
          hin | ⟨hceq, hdl, hfil⟩
        · exact hr c hin
        · refine ⟨by rw [hceq]; exact hc nn hnn, by rw [hceq]; exact hdl, ?_⟩
          intro g hg
          rw [hceq]
          exact hfil g hg

theorem greedy_loop_inv (s : Vamana) (query : List ℚ) (L : ℕ) (filter : Option (ℕ → Bool)) :
    ∀ (fuel : ℕ) (st : search_state),
      (∀ c ∈ st.candidates, candOK s query c) →
      (∀ c ∈ st.results, resOK s query filter c) →
      ∀ c ∈ greedy_loop s query L filter fuel st, resOK s query filter c := by
  intro fuel
  induction fuel with
  | zero =>
    intro st _ hr c hmem
    simp only [greedy_loop] at hmem
    exact hr c hmem
  | succ fuel ih =>
    intro st hc hr c hmem
    simp only [greedy_loop] at hmem
    cases hstep : greedy_step s query L filter st with
    | none =>
      rw [hstep] at hmem
      exact hr c hmem
    | some st2 =>
      rw [hstep] at hmem
      have := greedy_step_inv s query L filter st st2 hstep hc hr
      exact ih st2 this.1 this.2 c hmem

/-- C3: every greedy_search call yields at most k results, sorted by
ascending distance to the query under the configured metric; every
returned id is present in the node map (with the stored distance being
its true metric distance to the query), is not tombstoned, and passes
the filter when one is supplied. -/
theorem greedy_search_top_k_sorted_live (s : Vamana) (start : ℕ) (q : List ℚ) (k L : ℕ)
    (filter : Option (ℕ → Bool)) :
    (Vamana.greedy_search s start q k L filter).length ≤ k ∧
    List.Pairwise (fun a b => a.distance ≤ b.distance)
      (Vamana.greedy_search s start q k L filter) ∧
    ∀ c ∈ Vamana.greedy_search s start q k L filter,
      (∃ n, findNode s.node_map c.id = some n ∧
        c.distance = distance_compute s.metric n.vector q s.dims) ∧
      c.id ∉ s.delete_list ∧ (∀ g, filter = some g → g c.id = true) := by
  unfold Vamana.greedy_search
  cases hs : findNode s.node_map start with
  | none => simp
  | some snode =>
    simp only []
    refine ⟨?_, ?_, ?_⟩
    · rw [List.length_take]
      exact Nat.min_le_left _ _
    · apply List.Pairwise.sublist (List.take_sublist _ _)
      rw [List.pairwise_reverse]
      exact drainResults_sorted _ _
    · intro c hmem
      have hmem2 : c ∈ (drainResults _ (greedy_loop s q L filter (s.node_map.length + 1)
          ⟨[⟨start, distance_compute s.metric snode.vector q s.dims⟩], [], [start], none⟩)).reverse :=
        (List.take_sublist _ _).subset hmem
      rw [List.mem_reverse] at hmem2
      have hmem3 := drainResults_mem hmem2
      have hres := greedy_loop_inv s q L filter (s.node_map.length + 1)
        ⟨[⟨start, distance_compute s.metric snode.vector q s.dims⟩], [], [start], none⟩
        (by
          intro c2 hc2
          simp only [List.mem_singleton] at hc2
          exact ⟨snode, by rw [hc2]; exact hs, by rw [hc2]⟩)
        (by intro c2 hc2; simp at hc2)
        c hmem3
      exact ⟨hres.1, hres.2.1, hres.2.2⟩

theorem vec_updateEntry (m : NodeMap) (id : ℕ) (f : vamana_node_t → vamana_node_t)
    (hf : ∀ n, (f n).vector = n.vector) (j : ℕ) :
    (findNode (updateEntry m id f) j).map vamana_node_t.vector =
      (findNode m j).map vamana_node_t.vector := by
  by_cases hj : j = id
  · subst hj
    rw [findNode_updateEntry_self]
    cases findNode m j with
    | none => rfl
    | some n => simp [hf]
  · rw [findNode_updateEntry_other _ _ _ _ hj]

theorem robust_prune_fields (s : Vamana) (p : ℕ) (c : List vamana_candidate_t) (a : ℚ) :
    (Vamana.robust_prune s p c a).R = s.R ∧
    (Vamana.robust_prune s p c a).metric = s.metric ∧
    (Vamana.robust_prune s p c a).dims = s.dims ∧
    (Vamana.robust_prune s p c a).delete_list = s.delete_list ∧
    (Vamana.robust_prune s p c a).start_node = s.start_node := by
  unfold Vamana.robust_prune
  cases findNode s.node_map p <;> exact ⟨rfl, rfl, rfl, rfl, rfl⟩

theorem vec_robust_prune (s : Vamana) (p : ℕ) (c : List vamana_candidate_t) (a : ℚ) (j : ℕ) :
    (findNode (Vamana.robust_prune s p c a).node_map j).map vamana_node_t.vector =
      (findNode s.node_map j).map vamana_node_t.vector := by
  unfold Vamana.robust_prune
  cases findNode s.node_map p with
  | none => rfl
  | some n =>
    simp only [setNeighbors]
    refine vec_updateEntry _ _ _ ?_ j
    intro n2
    rfl

theorem update_neighbors_fields (s : Vamana) (id : ℕ) (vec : List ℚ) (alpha : ℚ) :
    (Vamana.update_neighbors s id vec alpha).R = s.R ∧
    (Vamana.update_neighbors s id vec alpha).metric = s.metric ∧
    (Vamana.update_neighbors s id vec alpha).dims = s.dims ∧
    (Vamana.update_neighbors s id vec alpha).delete_list = s.delete_list ∧
    (Vamana.update_neighbors s id vec alpha).start_node = s.start_node ∧
    ∀ j, (findNode (Vamana.update_neighbors s id vec alpha).node_map j).map vamana_node_t.vector =
      (findNode s.node_map j).map vamana_node_t.vector := by
  unfold Vamana.update_neighbors
  refine foldl_preserve (fun st => st.R = s.R ∧ st.metric = s.metric ∧ st.dims = s.dims ∧
    st.delete_list = s.delete_list ∧ st.start_node = s.start_node ∧
    ∀ j, (findNode st.node_map j).map vamana_node_t.vector =
      (findNode s.node_map j).map vamana_node_t.vector) _ ?_ _ s
    ⟨rfl, rfl, rfl, rfl, rfl, fun _ => rfl⟩
  intro st nid hst
  obtain ⟨h1, h2, h3, h4, h5, h6⟩ := hst
  by_cases hdl : nid ∈ st.delete_list
  · simp only [hdl, if_pos]
    exact ⟨h1, h2, h3, h4, h5, h6⟩
  · simp only [hdl, if_neg, if_false]
    cases hf : findNode st.node_map nid with
    | none => exact ⟨h1, h2, h3, h4, h5, h6⟩
    | some nnode =>
      by_cases hcap : st.R ≤ nnode.neighbors.length
      · simp only [hcap, if_pos]
        have hfields := robust_prune_fields st nid
          (build_ncandidates st nnode id vec) alpha
        refine ⟨hfields.1.trans h1, hfields.2.1.trans h2, hfields.2.2.1.trans h3,
          hfields.2.2.2.1.trans h4, hfields.2.2.2.2.trans h5, ?_⟩
        intro j
        exact (vec_robust_prune st nid _ alpha j).trans (h6 j)
      · simp only [hcap, if_neg, if_false]
        by_cases hmem : id ∈ nnode.neighbors
        · simp only [hmem, if_pos]
          exact ⟨h1, h2, h3, h4, h5, h6⟩
        · simp only [hmem, if_neg, if_false, setNeighbors]
          refine ⟨h1, h2, h3, h4, h5, ?_⟩
          intro j
          refine Eq.trans ?_ (h6 j)
          refine vec_updateEntry _ _ _ ?_ j
          intro n2
          rfl

theorem try_medoid_fields (s : Vamana) (pt : List ℚ) (force : Bool) :
    (Vamana.try_medoid_compute s pt force).node_map = s.node_map ∧
    (Vamana.try_medoid_compute s pt force).R = s.R ∧
    (Vamana.try_medoid_compute s pt force).metric = s.metric ∧
    (Vamana.try_medoid_compute s pt force).dims = s.dims ∧
    (Vamana.try_medoid_compute s pt force).delete_list = s.delete_list := by
  unfold Vamana.try_medoid_compute
  by_cases hf : (force || should_recompute (medoidAdd s.medoid_tracker pt)) = true
  · simp only [hf, if_true]
    refine ⟨?_, ?_, ?_, ?_, ?_⟩ <;> (split <;> rfl)
  · simp only [hf, if_false]
    exact ⟨rfl, rfl, rfl, rfl, rfl⟩

theorem insert_fields (s : Vamana) (id : ℕ) (vec : List ℚ) (L : ℕ) (alpha : ℚ) :
    (Vamana.insert s id vec L alpha).R = s.R ∧
    (Vamana.insert s id vec L alpha).metric = s.metric ∧
    (Vamana.insert s id vec L alpha).dims = s.dims ∧
    (Vamana.insert s id vec L alpha).delete_list = s.delete_list ∧
    ∀ j, (findNode (Vamana.insert s id vec L alpha).node_map j).map vamana_node_t.vector =
      (findNode (tryEmplace s.node_map id (vamana_node_t.mk [] vec)) j).map
        vamana_node_t.vector := by
  unfold Vamana.insert
  simp only []
  have hm := try_medoid_fields
    { s with node_map := tryEmplace s.node_map id (vamana_node_t.mk [] vec) } vec false
  set s2 := Vamana.try_medoid_compute
    { s with node_map := tryEmplace s.node_map id (vamana_node_t.mk [] vec) } vec false
  have hpr := robust_prune_fields s2 id
    (Vamana.greedy_search s2 s2.start_node vec L L none) alpha
  set s3 := Vamana.robust_prune s2 id (Vamana.greedy_search s2 s2.start_node vec L L none) alpha
  have hun := update_neighbors_fields s3 id vec alpha
  refine ⟨?_, ?_, ?_, ?_, ?_⟩
  · rw [hun.1, hpr.1, hm.2.1]
  · rw [hun.2.1, hpr.2.1, hm.2.2.1]
  · rw [hun.2.2.1, hpr.2.2.1, hm.2.2.2.1]
  · rw [hun.2.2.2.1, hpr.2.2.2.1, hm.2.2.2.2]
  · intro j
    rw [hun.2.2.2.2.2 j, vec_robust_prune, hm.1]

/-- C9: update and remove on an id absent from the node map are silent
no-ops preserving the whole state (node map, tombstones, start_node,
medoid tracker), and greedy_search from an absent start id returns
nothing. -/
theorem absent_id_update_remove_search_noop (s : Vamana) (id : ℕ)
    (h : findNode s.node_map id = none) :
    (∀ v L alpha, Vamana.update s id v L alpha = s) ∧
    Vamana.remove s id = s ∧
    (∀ q k L filter, Vamana.greedy_search s id q k L filter = []) := by
  refine ⟨?_, ?_, ?_⟩
  · intro v L alpha
    unfold Vamana.update
    rw [h]
  · unfold Vamana.remove
    rw [h]
  · intro q k L filter
    unfold Vamana.greedy_search
    rw [h]

theorem absent_id_update_remove_search_noop_witness :
    findNode exThree.node_map 7 = none ∧
    Vamana.update exThree 7 [3] 2 (6 / 5) = exThree ∧
    Vamana.remove exThree 7 = exThree ∧
    Vamana.greedy_search exThree 7 [3] 2 4 none = [] := by
  have h : findNode exThree.node_map 7 = none := by decide
  have := absent_id_update_remove_search_noop exThree 7 h
  exact ⟨h, this.1 [3] 2 (6 / 5), this.2.1, this.2.2 [3] 2 4 none⟩

/-- C10: insert on an already-present id does not replace the stored
vector, because try_emplace is a no-op on an existing key; the vector
after the call is the vector stored before it. -/
theorem insert_existing_id_keeps_vector (s : Vamana) (id : ℕ) (n : vamana_node_t)
    (h : findNode s.node_map id = some n) (vec : List ℚ) (L : ℕ) (alpha : ℚ) :
    (findNode (Vamana.insert s id vec L alpha).node_map id).map vamana_node_t.vector =
      some n.vector := by
  rw [(insert_fields s id vec L alpha).2.2.2.2 id,
    findNode_tryEmplace_present s.node_map id (vamana_node_t.mk [] vec) n h, h]
  rfl

theorem insert_existing_id_keeps_vector_witness :
    findNode exThree.node_map 1 = some (vamana_node_t.mk [0, 2] [5]) ∧
    (findNode (Vamana.insert exThree 1 [77] 2 (6 / 5)).node_map 1).map
      vamana_node_t.vector = some [5] := by
  have h : findNode exThree.node_map 1 = some (vamana_node_t.mk [0, 2] [5]) := by decide
  exact ⟨h, insert_existing_id_keeps_vector exThree 1 (vamana_node_t.mk [0, 2] [5]) h
    [77] 2 (6 / 5)⟩

theorem robustPruneScan_len (nm : NodeMap) (metric : distance_metric_t) (dims R p : ℕ)
    (alpha : ℚ) : ∀ (fuel : ℕ) (l : List prune_cand_t) (nbrs : List ℕ),
    nbrs.length ≤ R → (robustPruneScan nm metric dims R p alpha fuel l nbrs).1.length ≤ R := by
  intro fuel
  induction fuel with
  | zero =>
    intro l nbrs hlen
    cases l with
    | nil => simpa [robustPruneScan] using hlen
    | cons c rest => simpa [robustPruneScan] using hlen
  | succ fuel ih =>
    intro l nbrs hlen
    cases l with
    | nil => simpa [robustPruneScan] using hlen
    | cons c rest =>
      simp only [robustPruneScan]
      by_cases hcap : R ≤ nbrs.length
      · rw [if_pos hcap]
        exact hlen
      · rw [if_neg hcap]
        by_cases hpr : c.pruned = true
        · rw [if_pos hpr]
          exact ih rest nbrs hlen
        · rw [if_neg hpr]
          by_cases hself : c.id = p
          · rw [if_pos hself]
            exact ih rest nbrs hlen
          · rw [if_neg hself]
            have hgrow : (nbrs ++ [c.id]).length ≤ R := by
              rw [List.length_append, List.length_singleton]
              omega
            cases findNode nm c.id with
            | none =>
              simp only []
              exact ih rest (nbrs ++ [c.id]) hgrow
            | some nnode =>
              simp only []
              exact ih (markPruned nm metric dims alpha p nnode.vector rest) (nbrs ++ [c.id]) hgrow

theorem robust_prune_deg (s : Vamana) (p : ℕ) (c : List vamana_candidate_t) (a : ℚ)
    (h : ∀ j n, findNode s.node_map j = some n → j ≠ p → n.neighbors.length ≤ s.R) :
    DegInv (Vamana.robust_prune s p c a) := by
  intro j n hj
  have hR : (Vamana.robust_prune s p c a).R = s.R := (robust_prune_fields s p c a).1
  rw [hR]
  unfold Vamana.robust_prune at hj
  cases hp : findNode s.node_map p with
  | none =>
    rw [hp] at hj
    simp only [] at hj
    by_cases hjp : j = p
    · rw [hjp, hp] at hj
      exact Option.noConfusion hj
    · exact h j n hj hjp
  | some n0 =>
    rw [hp] at hj
    simp only [setNeighbors] at hj
    by_cases hjp : j = p
    · subst hjp
      rw [findNode_updateEntry_self, hp] at hj
      have hn := Option.some.inj hj
      have hlen : (if (robustPruneScan s.node_map s.metric s.dims s.R j 1
          (List.map (fun c => prune_cand_t.mk c.id c.distance false) c).length
          (List.map (fun c => prune_cand_t.mk c.id c.distance false) c) []).2.2 = true then
            (robustPruneScan s.node_map s.metric s.dims s.R j 1
              (List.map (fun c => prune_cand_t.mk c.id c.distance false) c).length
              (List.map (fun c => prune_cand_t.mk c.id c.distance false) c) []).1
          else
            (robustPruneScan s.node_map s.metric s.dims s.R j a
              (robustPruneScan s.node_map s.metric s.dims s.R j 1
                (List.map (fun c => prune_cand_t.mk c.id c.distance false) c).length
                (List.map (fun c => prune_cand_t.mk c.id c.distance false) c) []).2.1.length
              (robustPruneScan s.node_map s.metric s.dims s.R j 1
                (List.map (fun c => prune_cand_t.mk c.id c.distance false) c).length
                (List.map (fun c => prune_cand_t.mk c.id c.distance false) c) []).2.1
              (robustPruneScan s.node_map s.metric s.dims s.R j 1
                (List.map (fun c => prune_cand_t.mk c.id c.distance false) c).length
                (List.map (fun c => prune_cand_t.mk c.id c.distance false) c) []).1).1).length
            ≤ s.R := by
        split
        · exact robustPruneScan_len _ _ _ _ _ _ _ _ [] (Nat.zero_le _)
        · exact robustPruneScan_len _ _ _ _ _ _ _ _ _
            (robustPruneScan_len _ _ _ _ _ _ _ _ [] (Nat.zero_le _))
      rw [← hn]
      exact hlen
    · rw [findNode_updateEntry_other _ _ _ _ hjp] at hj
      exact h j n hj hjp

theorem setNeighbors_deg (s : Vamana) (id : ℕ) (nbrs : List ℕ) (h : DegInv s)
    (hlen : nbrs.length ≤ s.R) : DegInv (setNeighbors s id nbrs) := by
  intro j n hj
  simp only [setNeighbors] at hj
  by_cases hjp : j = id
  · subst hjp
    rw [findNode_updateEntry_self] at hj
    cases hf : findNode s.node_map j with
    | none => rw [hf] at hj; exact Option.noConfusion hj
    | some n0 =>
      rw [hf] at hj
      have := Option.some.inj hj
      rw [← this]
      exact hlen
  · rw [findNode_updateEntry_other _ _ _ _ hjp] at hj
    exact h j n hj

theorem patch_edges_deg (s : Vamana) (owner : ℕ) (add : List ℕ) (h : DegInv s) :
    DegInv (patch_edges s owner add) := by
  unfold patch_edges
  by_cases hcap : s.R < (dedup_vector (neighborsOf s owner ++ add)).length
  · rw [if_pos hcap]
    apply robust_prune_deg
    intro j n hj hne
    simp only [setNeighbors] at hj
    rw [findNode_updateEntry_other _ _ _ _ hne] at hj
    exact h j n hj
  · rw [if_neg hcap]
    exact setNeighbors_deg s owner _ h (le_of_not_lt hcap)

theorem update_neighbors_deg (s : Vamana) (id : ℕ) (vec : List ℚ) (alpha : ℚ)
    (h : DegInv s) : DegInv (Vamana.update_neighbors s id vec alpha) := by
  unfold Vamana.update_neighbors
  refine foldl_preserve DegInv _ ?_ _ s h
  intro st nid hst
  by_cases hdl : nid ∈ st.delete_list
  · rw [if_pos hdl]
    exact hst
  · rw [if_neg hdl]
    cases hf : findNode st.node_map nid with
    | none => exact hst
    | some nnode =>
      simp only []
      by_cases hcap : st.R ≤ nnode.neighbors.length
      · rw [if_pos hcap]
        apply robust_prune_deg
        intro j n hj _
        exact hst j n hj
      · rw [if_neg hcap]
        by_cases hmem : id ∈ nnode.neighbors
        · rw [if_pos hmem]
          exact hst
        · rw [if_neg hmem]
          apply setNeighbors_deg st nid _ hst
          rw [List.length_append, List.length_singleton]
          omega

theorem try_medoid_deg (s : Vamana) (pt : List ℚ) (force : Bool) (h : DegInv s) :
    DegInv (Vamana.try_medoid_compute s pt force) := by
  intro j n hj
  rw [(try_medoid_fields s pt force).1] at hj
  rw [(try_medoid_fields s pt force).2.1]
  exact h j n hj

theorem insert_deg (s : Vamana) (id : ℕ) (vec : List ℚ) (L : ℕ) (alpha : ℚ)
    (h : DegInv s) : DegInv (Vamana.insert s id vec L alpha) := by
  unfold Vamana.insert
  apply update_neighbors_deg
  apply robust_prune_deg
  intro j n hj _
  refine try_medoid_deg _ vec false ?_ j n hj
  intro j2 n2 hj2
  simp only [] at hj2
  unfold tryEmplace at hj2
  cases hpresent : findNode s.node_map id with
  | some n0 =>
    rw [hpresent] at hj2
    exact h j2 n2 hj2
  | none =>
    rw [hpresent] at hj2
    rw [findNode_append_single] at hj2
    cases hfj : findNode s.node_map j2 with
    | some n1 =>
      rw [hfj] at hj2
      have := Option.some.inj hj2
      rw [← this]
      exact h j2 n1 hfj
    | none =>
      rw [hfj] at hj2
      by_cases hjid : id = j2
      · rw [if_pos hjid] at hj2
        have := Option.some.inj hj2
        rw [← this]
        exact Nat.zero_le _
      · rw [if_neg hjid] at hj2
        exact Option.noConfusion hj2

theorem setVector_deg (s : Vamana) (id : ℕ) (v : List ℚ) (h : DegInv s) :
    DegInv (setVector s id v) := by
  intro j n hj
  simp only [setVector] at hj
  by_cases hjp : j = id
  · subst hjp
    rw [findNode_updateEntry_self] at hj
    cases hf : findNode s.node_map j with
    | none => rw [hf] at hj; exact Option.noConfusion hj
    | some n0 =>
      rw [hf] at hj
      have := Option.some.inj hj
      rw [← this]
      exact h j n0 hf
  · rw [findNode_updateEntry_other _ _ _ _ hjp] at hj
    exact h j n hj

theorem update_deg (s : Vamana) (id : ℕ) (vec : List ℚ) (L : ℕ) (alpha : ℚ)
    (h : DegInv s) : DegInv (Vamana.update s id vec L alpha) := by
  unfold Vamana.update
  cases findNode s.node_map id with
  | none => exact h
  | some n0 =>
    simp only []
    by_cases hdl : id ∈ s.delete_list
    · rw [if_pos hdl]
      exact h
    · rw [if_neg hdl]
      apply update_neighbors_deg
      apply robust_prune_deg
      intro j n hj _
      exact setVector_deg s id vec h j n hj

theorem findNode_batch_map (m : NodeMap) (dl : List ℕ) (j : ℕ) :
    findNode (m.map (fun p =>
      (p.1, { p.2 with neighbors := p.2.neighbors.filter (fun x => decide (x ∉ dl)) }))) j =
    (findNode m j).map
      (fun n => { n with neighbors := n.neighbors.filter (fun x => decide (x ∉ dl)) }) := by
  induction m with
  | nil => simp [findNode]
  | cons p rest ih =>
    by_cases h : p.1 = j
    · simp [findNode, h]
    · simp only [List.map_cons, findNode, h, if_neg, if_false]
      exact ih

theorem batch_delete_deg (s : Vamana) (h : DegInv s) : DegInv (Vamana.batch_delete s) := by
  unfold Vamana.batch_delete
  by_cases hempty : s.delete_list = []
  · rw [if_pos hempty]
    exact h
  · rw [if_neg hempty]
    intro j n hj
    simp only [] at hj
    rw [findNode_batch_map] at hj
    cases hf : findNode s.node_map j with
    | none => rw [hf] at hj; exact Option.noConfusion hj
    | some n0 =>
      rw [hf] at hj
      have := Option.some.inj hj
      rw [← this]
      simp only []
      exact le_trans (List.length_filter_le _ _) (h j n0 hf)

theorem erase_deg_aux (m : NodeMap) (R : ℕ) (id : ℕ)
    (h : ∀ j n, findNode m j = some n → n.neighbors.length ≤ R) :
    ∀ j n, findNode (eraseNode m id) j = some n → n.neighbors.length ≤ R := by
  intro j n hj
  rw [findNode_eraseNode] at hj
  by_cases hjid : j = id
  · rw [if_pos hjid] at hj
    exact Option.noConfusion hj
  · rw [if_neg hjid] at hj
    exact h j n hj

theorem remove_deg (s : Vamana) (id : ℕ) (h : DegInv s) : DegInv (Vamana.remove s id) := by
  have hfold4 : ∀ (sr2 : List vamana_candidate_t) (l : List ℕ) (st : Vamana), DegInv st →
      DegInv (l.foldl (fun st2 z =>
        match findNode st2.node_map z with
        | none => st2
        | some _ => patch_edges st2 z (select_top_c st2 sr2 id z)) st) := by
    intro sr2 l st hst
    refine foldl_preserve DegInv _ ?_ l st hst
    intro st2 z hst2
    cases findNode st2.node_map z with
    | none => exact hst2
    | some _ => exact patch_edges_deg st2 z _ hst2
  have hfold5 : ∀ (sr2 : List vamana_candidate_t) (l : List ℕ) (st : Vamana), DegInv st →
      DegInv (l.foldl (fun st2 w =>
        match findNode st2.node_map w with
        | none => st2
        | some _ =>
          let scratch := select_top_c st2 sr2 id w
          if scratch.isEmpty then st2
          else scratch.foldl (fun st3 y =>
            if y = w then st3
            else
              match findNode st3.node_map y with
              | none => st3
              | some _ => patch_edges st3 y [w]) st2) st) := by
    intro sr2 l st hst
    refine foldl_preserve DegInv _ ?_ l st hst
    intro st2 w hst2
    cases findNode st2.node_map w with
    | none => exact hst2
    | some _ =>
      simp only []
      by_cases hemp : (select_top_c st2 sr2 id w).isEmpty = true
      · rw [if_pos hemp]
        exact hst2
      · rw [if_neg hemp]
        refine foldl_preserve DegInv _ ?_ _ st2 hst2
        intro st3 y hst3
        by_cases hyw : y = w
        · rw [if_pos hyw]
          exact hst3
        · rw [if_neg hyw]
          cases findNode st3.node_map y with
          | none => exact hst3
          | some _ => exact patch_edges_deg st3 y _ hst3
  unfold Vamana.remove
  cases hp : findNode s.node_map id with
  | none => exact h
  | some pnode =>
    simp only []
    split
    · split
      · split
        · exact fun j n hj => erase_deg_aux _ _ id (fun j2 n2 hj2 => h j2 n2 hj2) j n hj
        · exact fun j n hj => erase_deg_aux _ _ id (fun j2 n2 hj2 => h j2 n2 hj2) j n hj
      · exact fun j n hj => erase_deg_aux _ _ id (fun j2 n2 hj2 => h j2 n2 hj2) j n hj
    · split
      · split
        · exact fun j n hj =>
            erase_deg_aux _ _ id (hfold5 _ _ _ (hfold4 _ _ _ h)) j n hj
        · exact fun j n hj =>
            erase_deg_aux _ _ id (hfold5 _ _ _ (hfold4 _ _ _ h)) j n hj
      · exact fun j n hj =>
          erase_deg_aux _ _ id (hfold5 _ _ _ (hfold4 _ _ _ h)) j n hj

/-- C4: the degree bound |neighbors(u)| <= R is preserved by insert,
update, remove, and batch_delete: robust_prune never emits more than R
neighbors, the back-edge fast path only appends below R, and remove's
patch helper re-prunes any list exceeding R. -/
theorem degree_bound_all_ops (s : Vamana) (h : DegInv s) :
    (∀ id vec L alpha, DegInv (Vamana.insert s id vec L alpha)) ∧
    (∀ id vec L alpha, DegInv (Vamana.update s id vec L alpha)) ∧
    (∀ id, DegInv (Vamana.remove s id)) ∧
    DegInv (Vamana.batch_delete s) :=
  ⟨fun id vec L alpha => insert_deg s id vec L alpha h,
   fun id vec L alpha => update_deg s id vec L alpha h,
   fun id => remove_deg s id h,
   batch_delete_deg s h⟩

theorem degree_bound_all_ops_witness :
    DegInv (Vamana.insert (Vamana.init 4 distance_metric_t.L2 1) 3 [2] 2 (6 / 5)) :=
  (degree_bound_all_ops (Vamana.init 4 distance_metric_t.L2 1)
    (fun j n hj => by simp [findNode, Vamana.init] at hj)).1 3 [2] 2 (6 / 5)

theorem markPruned_length (nm : NodeMap) (metric : distance_metric_t) (dims : ℕ)
    (alpha : ℚ) (p : ℕ) (nv : List ℚ) (rest : List prune_cand_t) :
    (markPruned nm metric dims alpha p nv rest).length = rest.length := by
  simp [markPruned]

theorem robustPruneScan_marks (nm : NodeMap) (metric : distance_metric_t) (dims R p : ℕ)
    (alpha : ℚ) : ∀ (fuel : ℕ) (l : List prune_cand_t) (nbrs : List ℕ), l.length ≤ fuel →
    (robustPruneScan nm metric dims R p alpha fuel l nbrs).2.2 = false →
    ∀ c ∈ (robustPruneScan nm metric dims R p alpha fuel l nbrs).2.1,
      c.pruned = true ∨ c.id = p := by
  intro fuel
  induction fuel with
  | zero =>
    intro l nbrs hlen _
    have : l = [] := List.length_eq_zero.mp (Nat.le_zero.mp hlen)
    subst this
    simp [robustPruneScan]
  | succ fuel ih =>
    intro l nbrs hlen hexit
    cases l with
    | nil => simp [robustPruneScan]
    | cons c rest =>
      simp only [robustPruneScan] at hexit ⊢
      by_cases hcap : R ≤ nbrs.length
      · rw [if_pos hcap] at hexit
        simp at hexit
      · rw [if_neg hcap] at hexit ⊢
        have hrlen : rest.length ≤ fuel := by
          simp only [List.length_cons] at hlen
          omega
        by_cases hpr : c.pruned = true
        · rw [if_pos hpr] at hexit ⊢
          intro x hx
          rcases List.mem_cons.mp hx with hx | hx
          · rw [hx]; exact Or.inl hpr
          · exact ih rest nbrs hrlen hexit x hx
        · rw [if_neg hpr] at hexit ⊢
          by_cases hself : c.id = p
          · rw [if_pos hself] at hexit ⊢
            intro x hx
            rcases List.mem_cons.mp hx with hx | hx
            · rw [hx]; exact Or.inr hself
            · exact ih rest nbrs hrlen hexit x hx
          · rw [if_neg hself] at hexit ⊢
            cases hf : findNode nm c.id with
            | none =>
              rw [hf] at hexit
              simp only [] at hexit ⊢
              intro x hx
              rcases List.mem_cons.mp hx with hx | hx
              · rw [hx]; exact Or.inl rfl
              · exact ih rest (nbrs ++ [c.id]) hrlen hexit x hx
            | some nnode =>
              rw [hf] at hexit
              simp only [] at hexit ⊢
              have hmlen : (markPruned nm metric dims alpha p nnode.vector rest).length ≤ fuel := by
                rw [markPruned_length]
                exact hrlen
              intro x hx
              rcases List.mem_cons.mp hx with hx | hx
              · rw [hx]; exact Or.inl rfl
              · exact ih _ (nbrs ++ [c.id]) hmlen hexit x hx

theorem robustPruneScan_marked_noop (nm : NodeMap) (metric : distance_metric_t)
    (dims R p : ℕ) (alpha : ℚ) : ∀ (fuel : ℕ) (l : List prune_cand_t) (nbrs : List ℕ),
    (∀ c ∈ l, c.pruned = true ∨ c.id = p) →
    (robustPruneScan nm metric dims R p alpha fuel l nbrs).1 = nbrs := by
  intro fuel
  induction fuel with
  | zero =>
    intro l nbrs _
    cases l <;> simp [robustPruneScan]
  | succ fuel ih =>
    intro l nbrs hall
    cases l with
    | nil => simp [robustPruneScan]
    | cons c rest =>
      simp only [robustPruneScan]
      by_cases hcap : R ≤ nbrs.length
      · rw [if_pos hcap]
      · rw [if_neg hcap]
        have hrest : ∀ x ∈ rest, x.pruned = true ∨ x.id = p := by
          intro x hx
          exact hall x (List.mem_cons_of_mem c hx)
        by_cases hpr : c.pruned = true
        · rw [if_pos hpr]
          exact ih rest nbrs hrest
        · rw [if_neg hpr]
          have hself : c.id = p := by
            rcases hall c (List.mem_cons_self c rest) with hc | hc
            · exact absurd hc hpr
            · exact hc
          rw [if_pos hself]
          exact ih rest nbrs hrest

theorem robust_prune_alpha_indep (s : Vamana) (p : ℕ) (c : List vamana_candidate_t)
    (a b : ℚ) : Vamana.robust_prune s p c a = Vamana.robust_prune s p c b := by
  unfold Vamana.robust_prune
  cases findNode s.node_map p with
  | none => rfl
  | some n0 =>
    simp only []
    have key : ∀ (x : ℚ),
        (if (robustPruneScan s.node_map s.metric s.dims s.R p 1
            (List.map (fun c => prune_cand_t.mk c.id c.distance false) c).length
            (List.map (fun c => prune_cand_t.mk c.id c.distance false) c) []).2.2 = true then
          (robustPruneScan s.node_map s.metric s.dims s.R p 1
            (List.map (fun c => prune_cand_t.mk c.id c.distance false) c).length
            (List.map (fun c => prune_cand_t.mk c.id c.distance false) c) []).1
        else
          (robustPruneScan s.node_map s.metric s.dims s.R p x
            (robustPruneScan s.node_map s.metric s.dims s.R p 1
              (List.map (fun c => prune_cand_t.mk c.id c.distance false) c).length
              (List.map (fun c => prune_cand_t.mk c.id c.distance false) c) []).2.1.length
            (robustPruneScan s.node_map s.metric s.dims s.R p 1
              (List.map (fun c => prune_cand_t.mk c.id c.distance false) c).length
              (List.map (fun c => prune_cand_t.mk c.id c.distance false) c) []).2.1
            (robustPruneScan s.node_map s.metric s.dims s.R p 1
              (List.map (fun c => prune_cand_t.mk c.id c.distance false) c).length
              (List.map (fun c => prune_cand_t.mk c.id c.distance false) c) []).1).1) =
          (robustPruneScan s.node_map s.metric s.dims s.R p 1
            (List.map (fun c => prune_cand_t.mk c.id c.distance false) c).length
            (List.map (fun c => prune_cand_t.mk c.id c.distance false) c) []).1 := by
      intro x
      by_cases he : (robustPruneScan s.node_map s.metric s.dims s.R p 1
          (List.map (fun c => prune_cand_t.mk c.id c.distance false) c).length
          (List.map (fun c => prune_cand_t.mk c.id c.distance false) c) []).2.2 = true
      · rw [if_pos he]
      · rw [if_neg he]
        apply robustPruneScan_marked_noop
        apply robustPruneScan_marks s.node_map s.metric s.dims s.R p 1 _ _ [] (le_refl _)
        exact Bool.eq_false_iff.mpr he
    rw [key a, key b]

/-- C7: for a candidate list sorted by ascending distance, robust_prune
with alpha at least 1 yields a neighbor set that contains the set
produced with alpha = 1 (in this code the two are equal: pass 1 of the
two-pass loop, which always runs with alpha = 1, consumes or prunes
every non-self candidate, so the caller's alpha never changes the
outcome). -/
theorem robust_prune_alpha_superset (s : Vamana) (p : ℕ) (c : List vamana_candidate_t)
    (alpha : ℚ) (hsorted : List.Pairwise (fun a b => a.distance ≤ b.distance) c)
    (halpha : 1 ≤ alpha) :
    ∀ x ∈ neighborsOf (Vamana.robust_prune s p c 1) p,
      x ∈ neighborsOf (Vamana.robust_prune s p c alpha) p := by
  intro x hx
  rw [robust_prune_alpha_indep s p c alpha 1]
  exact hx

theorem robust_prune_alpha_superset_witness :
    List.Pairwise (fun a b => a.distance ≤ b.distance)
      [vamana_candidate_t.mk 2 16, vamana_candidate_t.mk 0 25] ∧
    (1 : ℚ) ≤ 6 / 5 ∧
    ∀ x ∈ neighborsOf (Vamana.robust_prune exThree 1
        [vamana_candidate_t.mk 2 16, vamana_candidate_t.mk 0 25] 1) 1,
      x ∈ neighborsOf (Vamana.robust_prune exThree 1
        [vamana_candidate_t.mk 2 16, vamana_candidate_t.mk 0 25] (6 / 5)) 1 :=
  ⟨by decide, by norm_num,
   robust_prune_alpha_superset exThree 1
     [vamana_candidate_t.mk 2 16, vamana_candidate_t.mk 0 25] (6 / 5)
     (by decide) (by norm_num)⟩

theorem validateNode_cons (R : ℕ) (seen : List ℕ) (nb : ℕ) (rest : List ℕ) :
    validateNode R seen (nb :: rest) =
      if nb ∈ seen ∨ R < seen.length then false else validateNode R (nb :: seen) rest := by
  by_cases h1 : nb ∈ seen <;> by_cases h2 : R < seen.length <;>
    simp [validateNode, h1, h2]

theorem validateNode_true_iff (R : ℕ) : ∀ (l seen : List ℕ),
    validateNode R seen l = true ↔
      (l.Nodup ∧ (∀ x ∈ l, x ∉ seen) ∧ (l = [] ∨ seen.length + l.length ≤ R + 1)) := by
  intro l
  induction l with
  | nil => intro seen; simp [validateNode]
  | cons nb rest ih =>
    intro seen
    rw [validateNode_cons]
    by_cases h1 : nb ∈ seen ∨ R < seen.length
    · rw [if_pos h1]
      simp only [Bool.false_eq_true, false_iff]
      rintro ⟨hnodup, hall, hlen⟩
      rcases h1 with h1 | h1
      · exact hall nb (List.mem_cons_self _ _) h1
      · rcases hlen with hlen | hlen
        · exact List.noConfusion hlen
        · simp only [List.length_cons] at hlen
          omega
    · rw [if_neg h1]
      push_neg at h1
      obtain ⟨hnb, hcap⟩ := h1
      rw [ih (nb :: seen)]
      constructor
      · rintro ⟨hnodup, hall, hlen⟩
        have hnbrest : nb ∉ rest := by
          intro hmem
          exact (hall nb hmem) (List.mem_cons_self _ _)
        refine ⟨List.Nodup.cons hnbrest hnodup, ?_, ?_⟩
        · intro x hx
          rcases List.mem_cons.mp hx with hx | hx
          · rw [hx]; exact hnb
          · intro hxseen
            exact (hall x hx) (List.mem_cons_of_mem nb hxseen)
        · rcases hlen with hlen | hlen
          · subst hlen
            right
            simp only [List.length_cons, List.length_nil]
            omega
          · right
            simp only [List.length_cons] at hlen ⊢
            omega
      · rintro ⟨hnodup, hall, hlen⟩
        have hnbrest : nb ∉ rest := (List.nodup_cons.mp hnodup).1
        refine ⟨(List.nodup_cons.mp hnodup).2, ?_, ?_⟩
        · intro x hx hxseen
          rcases List.mem_cons.mp hxseen with hxnb | hxseen2
          · rw [hxnb] at hx
            exact hnbrest hx
          · exact (hall x (List.mem_cons_of_mem nb hx)) hxseen2
        · rcases hlen with hlen | hlen
          · exact absurd hlen (List.cons_ne_nil nb rest)
          · simp only [List.length_cons] at hlen
            by_cases hrest : rest = []
            · exact Or.inl hrest
            · right
              simp only [List.length_cons]
              omega

/-- C5 (amended): validate_graph returns true exactly when every node's
neighbor list is duplicate-free and has length at most R + 1; in
particular a node with exactly R + 1 distinct neighbors still passes,
because the size check uses a strict comparison against the seen-set
size before inserting. -/
theorem validate_graph_true_iff (s : Vamana) :
    Vamana.validate_graph s = true ↔
      ∀ p ∈ s.node_map, p.2.neighbors.Nodup ∧ p.2.neighbors.length ≤ s.R + 1 := by
  unfold Vamana.validate_graph
  rw [List.all_eq_true]
  constructor
  · intro h p hp
    have := (validateNode_true_iff s.R p.2.neighbors []).mp (h p hp)
    refine ⟨this.1, ?_⟩
    rcases this.2.2 with hnil | hlen
    · rw [hnil]
      simp
    · simpa using hlen
  · intro h p hp
    rw [validateNode_true_iff s.R p.2.neighbors []]
    refine ⟨(h p hp).1, by simp, ?_⟩
    right
    simpa using (h p hp).2

/-- C5 counterexample: in exRPlusOne (R = 1), node 0 has two distinct
neighbors, strictly more than R, yet validate_graph returns true; the
claim that validate_graph returns false whenever some node has more
than R neighbors is false at this input. -/
theorem validate_graph_r_plus_one_counterexample :
    (∃ p ∈ exRPlusOne.node_map,
      exRPlusOne.R < p.2.neighbors.length ∧ p.2.neighbors.Nodup) ∧
    Vamana.validate_graph exRPlusOne = true := by
  constructor
  · exact ⟨(0, vamana_node_t.mk [1, 2] [0]), by decide, by decide⟩
  · decide

/-- C8 (amended): the candidate list that update_neighbors hands to
robust_prune when a neighbor is at capacity is sorted by ascending
distance to that neighbor (closest first, the order robust_prune's
scan expects): std::sort with max_cmp, whose operator() is less-than on
distance, produces a non-decreasing arrangement. -/
theorem build_ncandidates_sorted_ascending (s : Vamana) (neighbor_node : vamana_node_t)
    (id : ℕ) (vec : List ℚ) :
    List.Pairwise (fun a b => a.distance ≤ b.distance)
      (build_ncandidates s neighbor_node id vec) := by
  unfold build_ncandidates
  exact List.sorted_insertionSort candLE _

/-- C8 counterexample: in exPatch, the candidate list built for node 1
(at capacity R = 2) with new id 9 carries distances [1, 4, 9] in that
order, which is ascending, not descending; the claim that the list is
sorted in descending distance (worst first) is false at this input. -/
theorem build_ncandidates_not_descending_counterexample :
    (build_ncandidates exPatch (vamana_node_t.mk [2, 3] [0]) 9 [3]).map
      vamana_candidate_t.distance = [1, 4, 9] ∧
    ¬ List.Pairwise (fun a b => b.distance ≤ a.distance)
      (build_ncandidates exPatch (vamana_node_t.mk [2, 3] [0]) 9 [3]) ∧
    exPatch.R ≤ (vamana_node_t.mk [2, 3] [0] : vamana_node_t).neighbors.length ∧
    findNode exPatch.node_map 1 = some (vamana_node_t.mk [2, 3] [0]) := by
  have hl : build_ncandidates exPatch (vamana_node_t.mk [2, 3] [0]) 9 [3] =
      [vamana_candidate_t.mk 2 1, vamana_candidate_t.mk 3 4, vamana_candidate_t.mk 9 9] := by
    norm_num [build_ncandidates, findNode, distance_compute, l2_distance, exPatch,
      List.range_succ, List.insertionSort, List.orderedInsert, candLE, List.filterMap_cons]
  refine ⟨by rw [hl]; rfl, ?_, by decide, by decide⟩
  rw [hl]
  intro hpair
  have h12 := (List.pairwise_cons.mp hpair).1 _ (List.mem_cons_self _ _)
  norm_num at h12

/-- C1 (failing input): the first-ever insert into a fresh index (id 5,
vector [1]) leaves start_node at its initial value 0, which is not a key
of the now non-empty node map: the medoid countdown starts at 10000 and
the first add only brings it to 9999, so no recompute runs, and the
seed search from the absent id 0 returns nothing. -/
theorem first_insert_leaves_dead_start_node :
    (Vamana.insert (Vamana.init 4 distance_metric_t.L2 1) 5 [1] 4 (6 / 5)).node_map.map
      Prod.fst = [5] ∧
    (Vamana.insert (Vamana.init 4 distance_metric_t.L2 1) 5 [1] 4 (6 / 5)).start_node = 0 ∧
    findNode (Vamana.insert (Vamana.init 4 distance_metric_t.L2 1) 5 [1] 4 (6 / 5)).node_map
      0 = none := by
  norm_num [Vamana.insert, Vamana.try_medoid_compute, Vamana.greedy_search, greedy_loop,
    greedy_step, popMin, popMax, drainResults, acceptResults, expandNeighbors, findNode,
    neighborsOf, distance_compute, l2_distance, Vamana.init, List.range_succ, tryEmplace,
    medoidAdd, medoidCentroid, should_recompute, u64dec, Vamana.robust_prune, robustPruneScan,
    markPruned, setNeighbors, updateEntry, Vamana.update_neighbors]

/-- C2 (failing input): removing node 1 from exThree leaves both
remaining live nodes listing themselves as neighbors: the in-neighbor
patch step computes the top-C closest candidates to each anchor without
excluding the anchor itself, and the anchor (at distance 0 to itself)
is always selected and appended to its own list. -/
theorem remove_creates_self_loops :
    (Vamana.remove exThree 1).node_map.map Prod.fst = [0, 2] ∧
    0 ∈ neighborsOf (Vamana.remove exThree 1) 0 ∧
    2 ∈ neighborsOf (Vamana.remove exThree 1) 2 := by
  norm_num [Vamana.remove, Vamana.greedy_search, greedy_loop, greedy_step, popMin, popMax,
    drainResults, acceptResults, expandNeighbors, findNode, neighborsOf, distance_compute,
    l2_distance, exThree, List.range_succ, select_top_c, patch_edges, dedup_vector,
    insertTombstone, eraseNode, updateEntry, setNeighbors, medoidSub, u64dec,
    List.insertionSort, List.orderedInsert, pairLE, candLE, Vamana.robust_prune,
    robustPruneScan, markPruned, List.foldl_cons, List.foldl_nil, List.filter_cons,
    List.filterMap_cons]

theorem l2_distance_self (a : List ℚ) (d : ℕ) : l2_distance a a d = 0 := by
  unfold l2_distance
  apply List.sum_eq_zero
  intro x hx
  rcases List.mem_map.mp hx with ⟨i, _, hi⟩
  rw [← hi]
  simp

theorem exists_ne_of_count_lt_length {l : List vamana_candidate_t}
    {a : vamana_candidate_t} (h : l.count a < l.length) : ∃ b ∈ l, b ≠ a := by
  induction l with
  | nil => simp at h
  | cons c rest ih =>
    by_cases hca : c = a
    · subst hca
      rw [List.count_cons_self, List.length_cons] at h
      have h2 : rest.count c < rest.length := by omega
      rcases ih h2 with ⟨b, hb, hbne⟩
      exact ⟨b, List.mem_cons_of_mem c hb, hbne⟩
    · exact ⟨c, List.mem_cons_self c rest, hca⟩

theorem acceptResults_keep (L : ℕ) (dl : List ℕ) (nn x : vamana_candidate_t)
    (res : List vamana_candidate_t) (maxd : Option ℚ)
    (hL : 1 ≤ L) (hx : x ∈ res) (hx0 : x.distance = 0)
    (hcount : res.count x ≤ 1)
    (hpos : ∀ c ∈ res, c = x ∨ 0 < c.distance) (hnn : 0 < nn.distance) :
    x ∈ (acceptResults L none dl nn res maxd).1 ∧
    (acceptResults L none dl nn res maxd).1.count x ≤ 1 ∧
    ∀ c ∈ (acceptResults L none dl nn res maxd).1, c = x ∨ 0 < c.distance := by
  have hnnx : nn ≠ x := by
    intro he
    rw [he, hx0] at hnn
    exact lt_irrefl 0 hnn
  simp only [acceptResults]
  by_cases hacc : ((decide (res.length < L) ||
      (match popMax res with
       | some (m, _) => decide (nn.distance < m.distance)
       | none => false)) && decide (nn.id ∉ dl)) = true
  · rw [if_pos hacc]
    simp only [if_true]
    have hr1x : x ∈ res ++ [nn] := List.mem_append.mpr (Or.inl hx)
    have hr1count : (res ++ [nn]).count x ≤ 1 := by
      rw [List.count_append]
      have : ([nn] : List vamana_candidate_t).count x = 0 := by
        simp [List.count_singleton]
        intro he
        exact absurd he hnnx
      omega
    have hr1pos : ∀ c ∈ res ++ [nn], c = x ∨ 0 < c.distance := by
      intro c hc
      rcases List.mem_append.mp hc with hc | hc
      · exact hpos c hc
      · simp only [List.mem_singleton] at hc
        rw [hc]
        exact Or.inr hnn
    by_cases hL2 : L < (res ++ [nn]).length
    · rw [if_pos hL2]
      cases hpop : popMax (res ++ [nn]) with
      | none =>
        exact absurd (popMax_eq_none hpop) (List.ne_nil_of_mem hr1x)
      | some q =>
        obtain ⟨w, rst⟩ := q
        simp only []
        have hperm := popMax_perm hpop
        have hlen2 : 2 ≤ (res ++ [nn]).length := by omega
        have hex : ∃ b ∈ res ++ [nn], b ≠ x :=
          exists_ne_of_count_lt_length (by omega)
        obtain ⟨b, hb, hbne⟩ := hex
        have hbpos : 0 < b.distance := by
          rcases hr1pos b hb with hbx | hbpos
          · exact absurd hbx hbne
          · exact hbpos
        have hwpos : 0 < w.distance := lt_of_lt_of_le hbpos (popMax_ge hpop b hb)
        have hwx : w ≠ x := by
          intro he
          rw [he, hx0] at hwpos
          exact lt_irrefl 0 hwpos
        have hxrst : x ∈ rst := by
          have := hperm.mem_iff.mp hr1x
          rcases List.mem_cons.mp this with hxe | hxe
          · exact absurd hxe.symm hwx
          · exact hxe
        refine ⟨hxrst, ?_, ?_⟩
        · have hcnt := hperm.count_eq x
          rw [List.count_cons] at hcnt
          have hwxb : (w == x) = false := beq_eq_false_iff_ne.mpr hwx
          rw [hwxb] at hcnt
          simp only [Bool.false_eq_true, if_false] at hcnt
          omega
        · intro c hc
          exact hr1pos c (hperm.mem_iff.mpr (List.mem_cons_of_mem w hc))
    · rw [if_neg hL2]
      exact ⟨hr1x, hr1count, hr1pos⟩
  · rw [if_neg hacc]
    exact ⟨hx, hcount, hpos⟩

theorem greedy_step_keeps_self (s : Vamana) (query : List ℚ) (L : ℕ) (i : ℕ)
    (hL : 1 ≤ L)
    (hpos : ∀ j nj, findNode s.node_map j = some nj → j ≠ i →
      0 < distance_compute s.metric nj.vector query s.dims)
    (st st2 : search_state) (h : greedy_step s query L none st = some st2)
    (h1 : vamana_candidate_t.mk i 0 ∈ st.results)
    (h2 : st.results.count (vamana_candidate_t.mk i 0) ≤ 1)
    (h3 : ∀ c ∈ st.results, c = vamana_candidate_t.mk i 0 ∨ 0 < c.distance)
    (h4 : ∀ c ∈ st.candidates, 0 < c.distance)
    (h5 : i ∈ st.visited) :
    vamana_candidate_t.mk i 0 ∈ st2.results ∧
    st2.results.count (vamana_candidate_t.mk i 0) ≤ 1 ∧
    (∀ c ∈ st2.results, c = vamana_candidate_t.mk i 0 ∨ 0 < c.distance) ∧
    (∀ c ∈ st2.candidates, 0 < c.distance) ∧
    i ∈ st2.visited := by
  simp only [greedy_step] at h
  cases hp : popMin st.candidates with
  | none => rw [hp] at h; exact Option.noConfusion h
  | some q =>
    obtain ⟨nn, rest⟩ := q
    rw [hp] at h
    simp only [] at h
    by_cases hstop : (match st.max_distance with
      | some m => decide (m < nn.distance)
      | none => false) = true
    · rw [if_pos hstop] at h
      exact Option.noConfusion h
    · rw [if_neg hstop] at h
      have hst2 := Option.some.inj h
      have hnn : 0 < nn.distance :=
        h4 nn ((popMin_perm hp).symm.mem_iff.mp (List.mem_cons_self nn rest))
      have hrest : ∀ c ∈ rest, 0 < c.distance := by
        intro c hcr
        exact h4 c ((popMin_perm hp).symm.mem_iff.mp (List.mem_cons_of_mem nn hcr))
      have hkeep := acceptResults_keep L s.delete_list nn (vamana_candidate_t.mk i 0)
        st.results st.max_distance hL h1 rfl h2 h3 hnn
      refine ⟨?_, ?_, ?_, ?_, ?_⟩
      · rw [← hst2]
        exact hkeep.1
      · rw [← hst2]
        exact hkeep.2.1
      · rw [← hst2]
        exact hkeep.2.2
      · rw [← hst2]
        simp only []
        cases hf : findNode s.node_map nn.id with
        | none => exact hrest
        | some node =>
          intro c hmem
          rcases expandNeighbors_mem s query node.neighbors (rest, st.visited) c hmem with
            hin | ⟨nb, nnode, hnb, hfind, hceq⟩
          · exact hrest c hin
          · have hnbne : nb ≠ i := fun he => hnb (he ▸ h5)
            rw [hceq]
            exact hpos nb nnode hfind hnbne
      · rw [← hst2]
        simp only []
        cases hf : findNode s.node_map nn.id with
        | none => exact h5
        | some node =>
          simp only []
          exact expandNeighbors_visited_sub s query node.neighbors (rest, st.visited) i h5

theorem greedy_loop_keeps_self (s : Vamana) (query : List ℚ) (L : ℕ) (i : ℕ)
    (hL : 1 ≤ L)
    (hpos : ∀ j nj, findNode s.node_map j = some nj → j ≠ i →
      0 < distance_compute s.metric nj.vector query s.dims) :
    ∀ (fuel : ℕ) (st : search_state),
      vamana_candidate_t.mk i 0 ∈ st.results →
      st.results.count (vamana_candidate_t.mk i 0) ≤ 1 →
      (∀ c ∈ st.results, c = vamana_candidate_t.mk i 0 ∨ 0 < c.distance) →
      (∀ c ∈ st.candidates, 0 < c.distance) →
      i ∈ st.visited →
      vamana_candidate_t.mk i 0 ∈ greedy_loop s query L none fuel st ∧
      ∀ c ∈ greedy_loop s query L none fuel st,
        c = vamana_candidate_t.mk i 0 ∨ 0 < c.distance := by
  intro fuel
  induction fuel with
  | zero =>
    intro st h1 _ h3 _ _
    simp only [greedy_loop]
    exact ⟨h1, h3⟩
  | succ fuel ih =>
    intro st h1 h2 h3 h4 h5
    simp only [greedy_loop]
    cases hstep : greedy_step s query L none st with
    | none => exact ⟨h1, h3⟩
    | some st2 =>
      have := greedy_step_keeps_self s query L i hL hpos st st2 hstep h1 h2 h3 h4 h5
      exact ih st2 this.1 this.2.1 this.2.2.1 this.2.2.2.1 this.2.2.2.2

theorem greedy_self_first (s : Vamana) (i : ℕ) (v : List ℚ) (k L : ℕ) (ni : vamana_node_t)
    (hi : findNode s.node_map i = some ni)
    (h0 : distance_compute s.metric ni.vector v s.dims = 0)
    (hpos : ∀ j nj, findNode s.node_map j = some nj → j ≠ i →
      0 < distance_compute s.metric nj.vector v s.dims)
    (hdl : i ∉ s.delete_list)
    (hk : 1 ≤ k) (hkL : k ≤ L) :
    (Vamana.greedy_search s i v k L none).head? = some (vamana_candidate_t.mk i 0) := by
  have hL : 1 ≤ L := le_trans hk hkL
  have hL0 : (0 : ℕ) < L := hL
  have hnl1 : ¬ (L < 1) := by omega
  have hstep : greedy_step s v L none ⟨[vamana_candidate_t.mk i 0], [], [i], none⟩ =
      some ⟨(expandNeighbors s v ni.neighbors ([], [i])).1, [vamana_candidate_t.mk i 0],
        (expandNeighbors s v ni.neighbors ([], [i])).2,
        if 1 = L then some 0 else none⟩ := by
    simp only [greedy_step, popMin, acceptResults, popMax, hi, hdl, hL0, hnl1,
      List.length_nil, List.nil_append, List.length_singleton,
      decide_eq_true_eq]
    simp [hnl1, hdl, hL0, popMax]
  unfold Vamana.greedy_search
  rw [hi]
  simp only [h0]
  rw [show greedy_loop s v L none (s.node_map.length + 1)
      ⟨[vamana_candidate_t.mk i 0], [], [i], none⟩ =
    greedy_loop s v L none s.node_map.length
      ⟨(expandNeighbors s v ni.neighbors ([], [i])).1, [vamana_candidate_t.mk i 0],
        (expandNeighbors s v ni.neighbors ([], [i])).2,
        if 1 = L then some 0 else none⟩ from by
      simp only [greedy_loop]
      rw [hstep]]
  have hinvc : ∀ c ∈ (expandNeighbors s v ni.neighbors ([], [i])).1, 0 < c.distance := by
    intro c hc
    rcases expandNeighbors_mem s v ni.neighbors ([], [i]) c hc with hin | ⟨nb, nnode, hnb, hfind, hceq⟩
    · simp at hin
    · have hnbne : nb ≠ i := by
        intro he
        exact hnb (by rw [he]; exact List.mem_singleton.mpr rfl)
      rw [hceq]
      exact hpos nb nnode hfind hnbne
  have hinvv : i ∈ (expandNeighbors s v ni.neighbors ([], [i])).2 :=
    expandNeighbors_visited_sub s v ni.neighbors ([], [i]) i (List.mem_singleton.mpr rfl)
  obtain ⟨hxout, hposout⟩ := greedy_loop_keeps_self s v L i hL hpos s.node_map.length
    ⟨(expandNeighbors s v ni.neighbors ([], [i])).1, [vamana_candidate_t.mk i 0],
      (expandNeighbors s v ni.neighbors ([], [i])).2, if 1 = L then some 0 else none⟩
    (List.mem_singleton.mpr rfl) (by simp) (by
      intro c hc
      simp only [List.mem_singleton] at hc
      exact Or.inl hc) hinvc hinvv
  set out := greedy_loop s v L none s.node_map.length
    ⟨(expandNeighbors s v ni.neighbors ([], [i])).1, [vamana_candidate_t.mk i 0],
      (expandNeighbors s v ni.neighbors ([], [i])).2, if 1 = L then some 0 else none⟩ with hout
  have hperm := drainResults_perm out.length out (le_refl _)
  have hsorted := drainResults_sorted out.length out
  have hxdr : vamana_candidate_t.mk i 0 ∈ drainResults out.length out :=
    hperm.mem_iff.mpr hxout
  have hxrev : vamana_candidate_t.mk i 0 ∈ (drainResults out.length out).reverse :=
    List.mem_reverse.mpr hxdr
  have hsortedrev : List.Pairwise (fun a b => a.distance ≤ b.distance)
      (drainResults out.length out).reverse := by
    rw [List.pairwise_reverse]
    exact hsorted
  cases hrev : (drainResults out.length out).reverse with
  | nil => rw [hrev] at hxrev; simp at hxrev
  | cons hcand t =>
    rw [hrev] at hxrev hsortedrev
    have htake : ((hcand :: t).take k).head? = some hcand := by
      cases k with
      | zero => omega
      | succ k2 => simp [List.take]
    have hhout : hcand ∈ out := by
      have hhmem : hcand ∈ (drainResults out.length out).reverse :=
        hrev ▸ List.mem_cons_self _ _
      exact hperm.mem_iff.mp (List.mem_reverse.mp hhmem)
    have hhx : hcand = vamana_candidate_t.mk i 0 := by
      rcases hposout hcand hhout with he | hpos2
      · exact he
      · exfalso
        rcases List.mem_cons.mp hxrev with hxe | hxt
        · rw [← hxe] at hpos2
          exact lt_irrefl 0 hpos2
        · have hle := (List.pairwise_cons.mp hsortedrev).1 _ hxt
          simp only [] at hle
          exact absurd (lt_of_lt_of_le hpos2 hle) (lt_irrefl 0)
    rw [htake, hhx]

/-- C6 (amended): under the L2 metric, after inserting a fresh id i
(absent from the node map and not tombstoned) with vector v into a state
where every stored vector is at strictly positive squared distance from
v, greedy_search(i, v, k, L2b) with 1 <= k <= L2b returns i as the first
result with distance 0.  (Under the inner-product metric the self
distance is 1 - |v|^2, not 0, so the original claim fails.) -/
theorem insert_then_self_search_l2 (s : Vamana) (i : ℕ) (v : List ℚ) (L : ℕ) (alpha : ℚ)
    (k L2b : ℕ)
    (hmetric : s.metric = distance_metric_t.L2)
    (hfresh : findNode s.node_map i = none)
    (hdl : i ∉ s.delete_list)
    (hothers : ∀ j nj, findNode s.node_map j = some nj → 0 < l2_distance nj.vector v s.dims)
    (hk : 1 ≤ k) (hkL : k ≤ L2b) :
    (Vamana.greedy_search (Vamana.insert s i v L alpha) i v k L2b none).head? =
      some (vamana_candidate_t.mk i 0) := by
  have hfields := insert_fields s i v L alpha
  have hveci : (findNode (Vamana.insert s i v L alpha).node_map i).map
      vamana_node_t.vector = some v := by
    rw [hfields.2.2.2.2 i, findNode_tryEmplace_self_absent s.node_map i _ hfresh]
    rfl
  obtain ⟨ni, hni, hniv⟩ := Option.map_eq_some'.mp hveci
  have h0 : distance_compute (Vamana.insert s i v L alpha).metric ni.vector v
      (Vamana.insert s i v L alpha).dims = 0 := by
    rw [hfields.2.1, hmetric, hfields.2.2.1, hniv]
    exact l2_distance_self v s.dims
  have hpos : ∀ j nj, findNode (Vamana.insert s i v L alpha).node_map j = some nj →
      j ≠ i → 0 < distance_compute (Vamana.insert s i v L alpha).metric nj.vector v
        (Vamana.insert s i v L alpha).dims := by
    intro j nj hj hne
    have hvecj : (findNode s.node_map j).map vamana_node_t.vector = some nj.vector := by
      rw [← findNode_tryEmplace_other s.node_map i j (vamana_node_t.mk [] v) hne,
        ← hfields.2.2.2.2 j, hj]
      rfl
    obtain ⟨nj0, hnj0, hnj0v⟩ := Option.map_eq_some'.mp hvecj
    rw [hfields.2.1, hmetric, hfields.2.2.1, ← hnj0v]
    exact hothers j nj0 hnj0
  have hdl2 : i ∉ (Vamana.insert s i v L alpha).delete_list := by
    rw [hfields.2.2.2.1]
    exact hdl
  exact greedy_self_first (Vamana.insert s i v L alpha) i v k L2b ni hni h0 hpos hdl2 hk hkL

theorem insert_then_self_search_l2_witness :
    findNode (Vamana.init 4 distance_metric_t.L2 1).node_map 3 = none ∧
    (Vamana.greedy_search (Vamana.insert (Vamana.init 4 distance_metric_t.L2 1) 3 [2] 2 2)
      3 [2] 1 1 none).head? = some (vamana_candidate_t.mk 3 0) := by
  refine ⟨rfl, ?_⟩
  exact insert_then_self_search_l2 (Vamana.init 4 distance_metric_t.L2 1) 3 [2] 2 2 1 1
    rfl rfl (by simp [Vamana.init]) (by
      intro j nj hj
      simp [findNode, Vamana.init] at hj)
    (by omega) (by omega)

/-- C6 counterexample: under the configured inner-product metric,
inserting id 7 with the non-unit vector [2] into a fresh index and
self-searching returns id 7 with distance 1 - 2*2 = -3, not 0; the
claim as stated (for every metric and vector) is false at this input. -/
theorem insert_self_search_ip_counterexample :
    Vamana.greedy_search
      (Vamana.insert (Vamana.init 4 distance_metric_t.INNER_PRODUCT 1) 7 [2] 4 (6 / 5))
      7 [2] 1 1 none = [vamana_candidate_t.mk 7 (-3)] ∧ (-3 : ℚ) ≠ 0 := by
  refine ⟨?_, by norm_num⟩
  norm_num [Vamana.insert, Vamana.try_medoid_compute, Vamana.greedy_search, greedy_loop,
    greedy_step, popMin, popMax, drainResults, acceptResults, expandNeighbors, findNode,
    neighborsOf, distance_compute, ip_distance, Vamana.init, List.range_succ, tryEmplace,
    medoidAdd, medoidCentroid, should_recompute, u64dec, Vamana.robust_prune, robustPruneScan,
    markPruned, setNeighbors, updateEntry, Vamana.update_neighbors]

theorem greedy_search_top_k_sorted_live_witness :
    (Vamana.greedy_search exThree 0 [5] 2 128 none).length ≤ 2 ∧
    List.Pairwise (fun a b => a.distance ≤ b.distance)
      (Vamana.greedy_search exThree 0 [5] 2 128 none) ∧
    ∀ c ∈ Vamana.greedy_search exThree 0 [5] 2 128 none,
      (∃ n, findNode exThree.node_map c.id = some n ∧
        c.distance = distance_compute exThree.metric n.vector [5] exThree.dims) ∧
      c.id ∉ exThree.delete_list ∧ (∀ g, (none : Option (ℕ → Bool)) = some g → g c.id = true) :=
  greedy_search_top_k_sorted_live exThree 0 [5] 2 128 none

theorem validate_graph_true_iff_witness :
    ∀ p ∈ exRPlusOne.node_map, p.2.neighbors.Nodup ∧ p.2.neighbors.length ≤ exRPlusOne.R + 1 :=
  (validate_graph_true_iff exRPlusOne).mp (by decide)

theorem build_ncandidates_sorted_ascending_witness :
    List.Pairwise (fun a b => a.distance ≤ b.distance)
      (build_ncandidates exPatch (vamana_node_t.mk [2, 3] [0]) 9 [3]) :=
  build_ncandidates_sorted_ascending exPatch (vamana_node_t.mk [2, 3] [0]) 9 [3]
